import Mathlib

/-!
Verification of the css-selector builder and JSON helpers of
`src/05-objects-tasks.js`.

The JavaScript code is shallowly embedded:

* `Chain` models a `NEWcssSelectorBuilder` instance: the numeric-keyed
  `selector` object becomes the six optional fields `s1 .. s6`
  (`selector[1] .. selector[6]`, listed in ascending key order, which is
  the order `Object.values` enumerates integer-like keys), and the
  `order` array becomes a `List String`.
* Methods that may `throw` return `Except (SelErr × Chain) Chain`; an
  error carries the state of the instance at the moment of the throw
  (JavaScript exceptions leave the mutated object behind).
* JavaScript truthiness of a possibly-absent string property
  (`!this.selector[k]`) is modelled by `truthy`: `undefined` and the
  empty string are falsy, every other string is truthy.
* The facade object `cssSelectorBuilder` with its module-level mutable
  `combiner` array becomes the one-field structure `Facade`; its
  `combine`/`stringify` are explicit state-passing functions.
-/

/-- The `check` array of category names, in canonical order
(`NEWcssSelectorBuilder.check`, line 127 of the source). -/
def checkList : List String :=
  ["element", "id", "class", "attr", "pseudoClass", "pseudoElement"]

/-- JavaScript `Array.prototype.indexOf`: index of the first occurrence,
`-1` when the element is absent. -/
def jsIndexOf : List String → String → Int
  | [], _ => -1
  | a :: as, x =>
    if a = x then 0
    else if jsIndexOf as x = -1 then -1 else jsIndexOf as x + 1

/-- The two errors thrown by the chain builder. -/
inductive SelErr where
  | orderViolation
  | duplicate
deriving DecidableEq, Repr

/-- The exact message strings attached to the two `throw new Error(...)`
statements in the source. -/
def SelErr.message : SelErr → String
  | .orderViolation =>
    "Selector parts should be arranged in the following order: element, id, class, attribute, pseudo-class, pseudo-element"
  | .duplicate =>
    "Element, id and pseudo-element should not occur more then one time inside the selector"

/-- State of one `NEWcssSelectorBuilder` instance: `s1 .. s6` are
`this.selector[1] .. this.selector[6]`, `order` is `this.order`. -/
structure Chain where
  s1 : Option String
  s2 : Option String
  s3 : Option String
  s4 : Option String
  s5 : Option String
  s6 : Option String
  order : List String
deriving DecidableEq, Repr

/-- The freshly constructed instance: `this.selector = {}; this.order = []`. -/
def Chain.empty : Chain := ⟨none, none, none, none, none, none, []⟩

/-- JavaScript truthiness of a possibly-absent string property:
`undefined` and the empty string are falsy. -/
def truthy : Option String → Bool
  | none => false
  | some s => !(s == "")

/-- `indexOf` of the last entry of `this.order` (`-1` when the array is
empty, matching `indexOf(undefined)`). -/
def Chain.lastIndex (c : Chain) : Int :=
  match c.order.getLast? with
  | none => -1
  | some prev => jsIndexOf checkList prev

/-- `NEWcssSelectorBuilder.check` (lines 126-141): throw the ordering
error when the last recorded index is `>= 0` and strictly greater than
the index of the incoming category; afterwards push the incoming
category exactly when its index is strictly greater.  The throw happens
before the push, so an ordering error leaves the state unchanged. -/
def Chain.check (c : Chain) (value : String) : Except (SelErr × Chain) Chain :=
  let indexPrev : Int := c.lastIndex
  let indexCurrent : Int := jsIndexOf checkList value
  if 0 ≤ indexPrev ∧ indexCurrent < indexPrev then
    Except.error (SelErr.orderViolation, c)
  else if indexPrev < indexCurrent then
    Except.ok { c with order := c.order ++ [value] }
  else
    Except.ok c

/-- `NEWcssSelectorBuilder.element` (lines 143-153). -/
def Chain.element (c : Chain) (value : String) : Except (SelErr × Chain) Chain :=
  match c.check "element" with
  | Except.error e => Except.error e
  | Except.ok c1 =>
    if truthy c1.s1 = false then Except.ok { c1 with s1 := some value }
    else Except.error (SelErr.duplicate, c1)

/-- `NEWcssSelectorBuilder.id` (lines 155-164): stores `#value`. -/
def Chain.id (c : Chain) (value : String) : Except (SelErr × Chain) Chain :=
  match c.check "id" with
  | Except.error e => Except.error e
  | Except.ok c1 =>
    if truthy c1.s2 = false then Except.ok { c1 with s2 := some ("#" ++ value) }
    else Except.error (SelErr.duplicate, c1)

/-- `NEWcssSelectorBuilder.class` (lines 166-176): appends `.value`
(`class` is a Lean keyword, hence the trailing underscore). -/
def Chain.class_ (c : Chain) (value : String) : Except (SelErr × Chain) Chain :=
  match c.check "class" with
  | Except.error e => Except.error e
  | Except.ok c1 =>
    if truthy c1.s3 = false then Except.ok { c1 with s3 := some ("." ++ value) }
    else Except.ok { c1 with s3 := some (c1.s3.getD "" ++ ("." ++ value)) }

/-- `NEWcssSelectorBuilder.attr` (lines 178-188): appends `[value]`. -/
def Chain.attr (c : Chain) (value : String) : Except (SelErr × Chain) Chain :=
  match c.check "attr" with
  | Except.error e => Except.error e
  | Except.ok c1 =>
    if truthy c1.s4 = false then Except.ok { c1 with s4 := some ("[" ++ value ++ "]") }
    else Except.ok { c1 with s4 := some (c1.s4.getD "" ++ ("[" ++ value ++ "]")) }

/-- `NEWcssSelectorBuilder.pseudoClass` (lines 190-200): appends `:value`. -/
def Chain.pseudoClass (c : Chain) (value : String) : Except (SelErr × Chain) Chain :=
  match c.check "pseudoClass" with
  | Except.error e => Except.error e
  | Except.ok c1 =>
    if truthy c1.s5 = false then Except.ok { c1 with s5 := some (":" ++ value) }
    else Except.ok { c1 with s5 := some (c1.s5.getD "" ++ (":" ++ value)) }

/-- `NEWcssSelectorBuilder.pseudoElement` (lines 202-212): stores `::value`. -/
def Chain.pseudoElement (c : Chain) (value : String) : Except (SelErr × Chain) Chain :=
  match c.check "pseudoElement" with
  | Except.error e => Except.error e
  | Except.ok c1 =>
    if truthy c1.s6 = false then Except.ok { c1 with s6 := some ("::" ++ value) }
    else Except.error (SelErr.duplicate, c1)

/-- `Object.values(this.selector)`: the stored fragments in ascending
numeric-key order, absent keys skipped. -/
def Chain.values (c : Chain) : List String :=
  [c.s1, c.s2, c.s3, c.s4, c.s5, c.s6].filterMap (fun o => o)

/-- `NEWcssSelectorBuilder.stringify` (lines 214-219):
`Object.values(this.selector)` joined with the empty separator. -/
def Chain.stringify (c : Chain) : String :=
  String.join c.values

/-- The six category methods, for quantifying over "every category call". -/
inductive Category where
  | element | id | class_ | attr | pseudoClass | pseudoElement
deriving DecidableEq, Repr

/-- The string each method passes to `check`. -/
def Category.name : Category → String
  | .element => "element"
  | .id => "id"
  | .class_ => "class"
  | .attr => "attr"
  | .pseudoClass => "pseudoClass"
  | .pseudoElement => "pseudoElement"

/-- Canonical index of a category. -/
def Category.idx (cat : Category) : Int := jsIndexOf checkList cat.name

/-- Dispatch a category call on a chain. -/
def Chain.applyCat (c : Chain) (cat : Category) (v : String) :
    Except (SelErr × Chain) Chain :=
  match cat with
  | .element => c.element v
  | .id => c.id v
  | .class_ => c.class_ v
  | .attr => c.attr v
  | .pseudoClass => c.pseudoClass v
  | .pseudoElement => c.pseudoElement v

/-- The kind of error produced by a call, if any. -/
def errKind : Except (SelErr × Chain) Chain → Option SelErr
  | Except.error (e, _) => some e
  | Except.ok _ => none

/-- State of the `cssSelectorBuilder` facade: its module-level mutable
`combiner` array. -/
structure Facade where
  combiner : List String
deriving DecidableEq, Repr

/-- An operand passed to `combine`: a chain instance (which has a
`selector` property) or the facade itself (which has none). -/
inductive Operand where
  | chain (c : Chain)
  | facade
deriving DecidableEq, Repr

namespace cssSelectorBuilder

/-- `cssSelectorBuilder.element`: a fresh instance with `element` applied. -/
def element (value : String) : Except (SelErr × Chain) Chain :=
  Chain.empty.element value

/-- `cssSelectorBuilder.id`. -/
def id (value : String) : Except (SelErr × Chain) Chain :=
  Chain.empty.id value

/-- `cssSelectorBuilder.class`. -/
def class_ (value : String) : Except (SelErr × Chain) Chain :=
  Chain.empty.class_ value

/-- `cssSelectorBuilder.attr`. -/
def attr (value : String) : Except (SelErr × Chain) Chain :=
  Chain.empty.attr value

/-- `cssSelectorBuilder.pseudoClass`. -/
def pseudoClass (value : String) : Except (SelErr × Chain) Chain :=
  Chain.empty.pseudoClass value

/-- `cssSelectorBuilder.pseudoElement`. -/
def pseudoElement (value : String) : Except (SelErr × Chain) Chain :=
  Chain.empty.pseudoElement value

/-- `cssSelectorBuilder.combine` (lines 250-268): for each operand that
has a `selector` property, push its `Object.values` joined with the empty separator; push
the combinator when truthy; `unshift` the collected pieces onto the
shared `combiner`; return the facade. -/
def combine (f : Facade) (selector1 : Operand) (combinator : String)
    (selector2 : Operand) : Facade :=
  let currentValue : List String := []
  let currentValue : List String :=
    match selector1 with
    | .chain c => currentValue ++ [String.join c.values]
    | .facade => currentValue
  let currentValue : List String :=
    if combinator = "" then currentValue else currentValue ++ [combinator]
  let currentValue : List String :=
    match selector2 with
    | .chain c => currentValue ++ [String.join c.values]
    | .facade => currentValue
  { f with combiner := currentValue ++ f.combiner }

/-- `cssSelectorBuilder.stringify` (lines 270-274): join the shared
`combiner` with single spaces, reset it to `[]`, return the joined
string.  The pair is (returned string, facade state afterwards). -/
def stringify (f : Facade) : String × Facade :=
  (String.intercalate " " f.combiner, { f with combiner := [] })

end cssSelectorBuilder

/-- Rendering contributed by an operand of `combine`: a chain
contributes its fragments joined in canonical order, the facade (no
`selector` property) contributes nothing. -/
def renderOperand : Operand → List String
  | .chain c => [String.join c.values]
  | .facade => []

/-- Run a list of category calls from a chain, failing on the first error. -/
def runCalls : Chain → List (Category × String) → Option Chain
  | c, [] => some c
  | c, (cat, v) :: rest =>
    match c.applyCat cat v with
    | Except.ok c2 => runCalls c2 rest
    | Except.error _ => none

/-- Invariant of every chain reachable through the public API: a truthy
stored fragment for a singleton category implies the last-category
pointer has reached at least that category. -/
def ChainInv (c : Chain) : Prop :=
  (truthy c.s1 = true → 0 ≤ c.lastIndex)
  ∧ (truthy c.s2 = true → 1 ≤ c.lastIndex)
  ∧ (truthy c.s6 = true → 5 ≤ c.lastIndex)

/-!
### JSON model (`getJSON` / `fromJSON`)

`getJSON` is `JSON.stringify` and `fromJSON` is `JSON.parse` followed by
`Object.setPrototypeOf`.  The builtins are modelled on the inductive
`JsonValue`:

* numbers are arbitrary-precision integers (`Int`); the parser accepts
  the full JSON number grammar but keeps only the integer part
  (IEEE-754 doubles are not shallowly embeddable; every claim about
  these helpers uses integer numbers only);
* strings are Lean `String`s (Unicode scalar values); `\uXXXX` escapes
  that denote lone surrogates are rejected by the model parser since a
  Lean `String` cannot hold them;
* objects are association lists in first-insertion order; the parser
  implements the JavaScript duplicate-key rule (`setField`: a later
  duplicate key overwrites the value in place).

`Object.setPrototypeOf(x, P)` throws a `TypeError` when `x` is `null`,
returns a bare primitive unchanged (no capabilities attached), and
attaches `P` to objects and arrays; `fromJSON` reflects this in
`JsResult`.
-/

/-- A JSON value (numbers restricted to integers, see above). -/
inductive JsonValue where
  | null
  | bool (b : Bool)
  | num (n : Int)
  | str (s : String)
  | arr (elems : List JsonValue)
  | obj (fields : List (String × JsonValue))

/-- Lowercase hex digit, as emitted by `JSON.stringify` in `\u00XX`. -/
def hexDigitChar (n : Nat) : Char :=
  Char.ofNat (if n < 10 then 48 + n else 87 + n)

/-- `JSON.stringify` escaping of one character inside a string literal. -/
def escChar (c : Char) : List Char :=
  if c = '"' then ['\\', '"']
  else if c = '\\' then ['\\', '\\']
  else if c = '\x08' then ['\\', 'b']
  else if c = '\x0c' then ['\\', 'f']
  else if c = '\n' then ['\\', 'n']
  else if c = '\r' then ['\\', 'r']
  else if c = '\t' then ['\\', 't']
  else if c.toNat < 32 then
    ['\\', 'u', '0', '0', hexDigitChar (c.toNat / 16), hexDigitChar (c.toNat % 16)]
  else [c]

/-- `JSON.stringify` escaping of a whole string body. -/
def escString : List Char → List Char
  | [] => []
  | c :: cs => escChar c ++ escString cs

/-- Decimal digits of a natural number, most significant first. -/
def natDigits (n : Nat) : List Char :=
  if h : n < 10 then [Char.ofNat (48 + n)]
  else natDigits (n / 10) ++ [Char.ofNat (48 + n % 10)]
decreasing_by exact Nat.div_lt_self (by omega) (by omega)

/-- Decimal rendering of an integer, as `String(n)` produces for
integral numbers. -/
def intDigits (n : Int) : List Char :=
  if n < 0 then '-' :: natDigits (-n).toNat else natDigits n.toNat

mutual

/-- `JSON.stringify` of a value (no spacing, insertion-order keys). -/
def serializeV : JsonValue → List Char
  | .null => "null".data
  | .bool true => "true".data
  | .bool false => "false".data
  | .num n => intDigits n
  | .str s => '"' :: (escString s.data ++ ['"'])
  | .arr xs => '[' :: (serializeElems xs ++ [']'])
  | .obj fs => '\x7b' :: (serializeFields fs ++ ['\x7d'])

/-- Array elements, comma-separated. -/
def serializeElems : List JsonValue → List Char
  | [] => []
  | v :: vs =>
    serializeV v ++ (match vs with
      | [] => []
      | _ :: _ => ',' :: serializeElems vs)

/-- Object members, `"key":value`, comma-separated. -/
def serializeFields : List (String × JsonValue) → List Char
  | [] => []
  | (k, v) :: fs =>
    ('"' :: (escString k.data ++ ['"'])) ++ (':' :: serializeV v)
      ++ (match fs with
        | [] => []
        | _ :: _ => ',' :: serializeFields fs)

end

/-- `getJSON(obj) = JSON.stringify(obj)` (source lines 42-44). -/
def getJSON (obj : JsonValue) : String :=
  String.mk (serializeV obj)

/-- JSON insignificant whitespace. -/
def jsonWs (c : Char) : Bool :=
  c == ' ' || c == '\t' || c == '\n' || c == '\r'

/-- Drop leading JSON whitespace. -/
def skipWs : List Char → List Char
  | [] => []
  | c :: cs => if jsonWs c then skipWs cs else c :: cs

/-- Value of a hex digit, if any. -/
def hexVal (c : Char) : Option Nat :=
  if 48 ≤ c.toNat ∧ c.toNat ≤ 57 then some (c.toNat - 48)
  else if 97 ≤ c.toNat ∧ c.toNat ≤ 102 then some (c.toNat - 87)
  else if 65 ≤ c.toNat ∧ c.toNat ≤ 70 then some (c.toNat - 55)
  else none

/-- Read four hex digits. -/
def readHex4 : List Char → Option (Nat × List Char)
  | h1 :: h2 :: h3 :: h4 :: cs =>
    match hexVal h1, hexVal h2, hexVal h3, hexVal h4 with
    | some a, some b, some d, some g => some (((a * 16 + b) * 16 + d) * 16 + g, cs)
    | _, _, _, _ => none
  | _ => none

/-- Decode one escape sequence (the input starts after the backslash):
escapes follow `JSON.parse`; `\uXXXX` surrogate pairs are combined, lone
surrogates are rejected (not representable in a Lean `String`). -/
def parseEscUnit : List Char → Option (Char × List Char)
  | [] => none
  | e :: cs2 =>
    if e = '"' then some ('"', cs2)
    else if e = '\\' then some ('\\', cs2)
    else if e = '/' then some ('/', cs2)
    else if e = 'b' then some ('\x08', cs2)
    else if e = 'f' then some ('\x0c', cs2)
    else if e = 'n' then some ('\n', cs2)
    else if e = 'r' then some ('\r', cs2)
    else if e = 't' then some ('\t', cs2)
    else if e = 'u' then
      match readHex4 cs2 with
      | none => none
      | some (n, cs3) =>
        if 55296 ≤ n ∧ n ≤ 56319 then
          match cs3 with
          | '\\' :: 'u' :: cs4 =>
            match readHex4 cs4 with
            | none => none
            | some (m, cs5) =>
              if 56320 ≤ m ∧ m ≤ 57343 then
                some (Char.ofNat (65536 + (n - 55296) * 1024 + (m - 56320)), cs5)
              else none
          | _ => none
        else if 56320 ≤ n ∧ n ≤ 57343 then none
        else some (Char.ofNat n, cs3)
    else none

/-- Parse the body of a JSON string literal (after the opening quote),
fuel-indexed: returns the decoded characters and the input after the
closing quote. -/
def parseStrF : Nat → List Char → Option (List Char × List Char)
  | 0, _ => none
  | Nat.succ f, input =>
    match input with
    | [] => none
    | c :: cs =>
      if c = '"' then some ([], cs)
      else if c = '\\' then
        match parseEscUnit cs with
        | none => none
        | some (d, cs2) => (parseStrF f cs2).map (fun p => (d :: p.1, p.2))
      else if c.toNat < 32 then none
      else (parseStrF f cs).map (fun p => (c :: p.1, p.2))

/-- Parse a JSON string body; the fuel `length + 1` dominates the number
of decoded characters, so it never runs out. -/
def parseStr (input : List Char) : Option (List Char × List Char) :=
  parseStrF (input.length + 1) input

/-- Longest digit prefix. -/
def spanDigits : List Char → List Char × List Char
  | [] => ([], [])
  | c :: cs =>
    if c.isDigit then
      let p := spanDigits cs
      (c :: p.1, p.2)
    else ([], c :: cs)

/-- Numeric value of a digit run. -/
def digitsVal (ds : List Char) : Nat :=
  ds.foldl (fun a c => a * 10 + (c.toNat - 48)) 0

/-- Validate the optional fraction and exponent of a JSON number and
return the remaining input (their value is discarded: numbers are
modelled as integers). -/
def finishNum (neg : Bool) (i : Nat) (rest : List Char) :
    Option (Int × List Char) :=
  let step1 : Option (List Char) :=
    match rest with
    | c :: r =>
      if c = '.' then
        let p := spanDigits r
        if p.1.isEmpty then none else some p.2
      else some rest
    | [] => some rest
  match step1 with
  | none => none
  | some r3 =>
    let step2 : Option (List Char) :=
      match r3 with
      | c :: r4 =>
        if c = 'e' ∨ c = 'E' then
          let r5 : List Char :=
            match r4 with
            | s :: r5x => if s = '+' ∨ s = '-' then r5x else r4
            | [] => r4
          let p := spanDigits r5
          if p.1.isEmpty then none else some p.2
        else some r3
      | [] => some r3
    match step2 with
    | none => none
    | some r7 => some ((if neg then -(i : Int) else (i : Int)), r7)

/-- Parse the digits of a JSON number after the optional minus sign. -/
def parseNumCore (neg : Bool) (in1 : List Char) : Option (Int × List Char) :=
  match in1 with
  | [] => none
  | c :: r =>
    if c = '0' then finishNum neg 0 r
    else if c.isDigit then
      let p := spanDigits (c :: r)
      finishNum neg (digitsVal p.1) p.2
    else none

/-- Parse a JSON number (grammar of `JSON.parse`; value kept as the
integer part). -/
def parseNum (input : List Char) : Option (Int × List Char) :=
  match input with
  | [] => none
  | c :: r => if c = '-' then parseNumCore true r else parseNumCore false (c :: r)

/-- Keep-last update of an association list, preserving the position of
the first occurrence of the key (JavaScript property assignment order). -/
def setField (fs : List (String × JsonValue)) (k : String) (v : JsonValue) :
    List (String × JsonValue) :=
  match fs with
  | [] => [(k, v)]
  | (k0, v0) :: rest =>
    if k0 = k then (k0, v) :: rest else (k0, v0) :: setField rest k v

mutual

/-- Parse one JSON value (fuel-indexed recursive descent mirroring
`JSON.parse`). -/
def parseVal : Nat → List Char → Option (JsonValue × List Char)
  | 0, _ => none
  | Nat.succ f, input =>
    match skipWs input with
    | [] => none
    | c :: rest =>
      if c = '"' then (parseStr rest).map (fun p => (JsonValue.str (String.mk p.1), p.2))
      else if c = '\x7b' then
        match skipWs rest with
        | [] => none
        | c2 :: r2 =>
          if c2 = '\x7d' then some (JsonValue.obj [], r2)
          else (parseMembersRest f [] (c2 :: r2)).map (fun p => (JsonValue.obj p.1, p.2))
      else if c = '[' then
        match skipWs rest with
        | [] => none
        | c2 :: r2 =>
          if c2 = ']' then some (JsonValue.arr [], r2)
          else (parseElemsRest f (c2 :: r2)).map (fun p => (JsonValue.arr p.1, p.2))
      else if c = 't' then
        match rest with
        | 'r' :: 'u' :: 'e' :: r => some (JsonValue.bool true, r)
        | _ => none
      else if c = 'f' then
        match rest with
        | 'a' :: 'l' :: 's' :: 'e' :: r => some (JsonValue.bool false, r)
        | _ => none
      else if c = 'n' then
        match rest with
        | 'u' :: 'l' :: 'l' :: r => some (JsonValue.null, r)
        | _ => none
      else (parseNum (c :: rest)).map (fun p => (JsonValue.num p.1, p.2))

/-- Parse the elements of a non-empty array (position: at the start of
an element). -/
def parseElemsRest : Nat → List Char → Option (List JsonValue × List Char)
  | 0, _ => none
  | Nat.succ f, input =>
    match parseVal f input with
    | none => none
    | some (v, r1) =>
      match skipWs r1 with
      | [] => none
      | c :: r2 =>
        if c = ',' then
          match parseElemsRest f r2 with
          | none => none
          | some (vs, r3) => some (v :: vs, r3)
        else if c = ']' then some ([v], r2)
        else none

/-- Parse the members of a non-empty object (position: at the start of
a member); `acc` is the object built so far, updated with the
JavaScript duplicate-key rule. -/
def parseMembersRest : Nat → List (String × JsonValue) → List Char →
    Option (List (String × JsonValue) × List Char)
  | 0, _, _ => none
  | Nat.succ f, acc, input =>
    match skipWs input with
    | [] => none
    | c :: r =>
      if c = '"' then
        match parseStr r with
        | none => none
        | some (key, r1) =>
          match skipWs r1 with
          | [] => none
          | c2 :: r2 =>
            if c2 = ':' then
              match parseVal f r2 with
              | none => none
              | some (v, r3) =>
                match skipWs r3 with
                | [] => none
                | c3 :: r4 =>
                  if c3 = ',' then parseMembersRest f (setField acc (String.mk key) v) r4
                  else if c3 = '\x7d' then some (setField acc (String.mk key) v, r4)
                  else none
            else none
      else none

end

/-- `JSON.parse`: parse one value surrounded by optional whitespace,
requiring the whole text to be consumed.  The fuel `2 * length + 2`
dominates the recursion depth (each two nested calls consume at least
one character). -/
def parse (s : String) : Option JsonValue :=
  match parseVal (2 * s.length + 2) s.data with
  | none => none
  | some (v, rest) =>
    match skipWs rest with
    | [] => some v
    | _ :: _ => none

/-- The errors `fromJSON` can raise: `SyntaxError` from `JSON.parse`
(the spec's `ParseError`) and `TypeError` from
`Object.setPrototypeOf(null, P)`. -/
inductive JsError where
  | parseError
  | typeError
deriving DecidableEq, Repr

/-- Result of `fromJSON`: `Object.setPrototypeOf` returns bare
primitives unchanged and attaches the prototype to objects/arrays. -/
inductive JsResult (π : Type) where
  | primitive (v : JsonValue)
  | object (v : JsonValue) (proto : π)

/-- Whether a JSON value is an object or an array (a JavaScript object,
the only values `Object.setPrototypeOf` can mutate). -/
def JsonValue.isComposite : JsonValue → Bool
  | .arr _ => true
  | .obj _ => true
  | _ => false

/-- `fromJSON(Proto, json)` (source lines 58-64): `JSON.parse`, then
`Object.setPrototypeOf(object, Proto)`, then return the object. -/
def fromJSON {π : Type} (Proto : π) (json : String) :
    Except JsError (JsResult π) :=
  match parse json with
  | none => Except.error JsError.parseError
  | some v =>
    match v with
    | JsonValue.null => Except.error JsError.typeError
    | JsonValue.arr xs => Except.ok (JsResult.object (JsonValue.arr xs) Proto)
    | JsonValue.obj fs => Except.ok (JsResult.object (JsonValue.obj fs) Proto)
    | w => Except.ok (JsResult.primitive w)

/-- Keys of an object association list. -/
def keysOf (fs : List (String × JsonValue)) : List String :=
  fs.map Prod.fst

/-- All keys pairwise distinct. -/
def distinct : List String → Bool
  | [] => true
  | k :: ks => (!ks.contains k) && distinct ks

mutual

/-- A value all of whose objects have pairwise-distinct keys: exactly
the values that arise from JavaScript objects. -/
def wfKeys : JsonValue → Bool
  | .null => true
  | .bool _ => true
  | .num _ => true
  | .str _ => true
  | .arr xs => wfKeysElems xs
  | .obj fs => distinct (keysOf fs) && wfKeysFields fs

def wfKeysElems : List JsonValue → Bool
  | [] => true
  | v :: vs => wfKeys v && wfKeysElems vs

def wfKeysFields : List (String × JsonValue) → Bool
  | [] => true
  | (_, v) :: fs => wfKeys v && wfKeysFields fs

end

mutual

/-- Fuel sufficient for `parseVal` on the serialization of a value. -/
def fuelNeed : JsonValue → Nat
  | .null => 1
  | .bool _ => 1
  | .num _ => 1
  | .str _ => 1
  | .arr xs => 1 + fuelElems xs
  | .obj fs => 1 + fuelFields fs

def fuelElems : List JsonValue → Nat
  | [] => 1
  | v :: vs => 1 + Nat.max (fuelNeed v) (fuelElems vs)

def fuelFields : List (String × JsonValue) → Nat
  | [] => 1
  | (_, v) :: fs => 1 + Nat.max (fuelNeed v) (fuelFields fs)

end

/-- The next character (if any) cannot extend a preceding number
literal: used to state the parser/serializer round trip. -/
def numSafe : List Char → Bool
  | [] => true
  | c :: _ => !(c.isDigit || c == '.' || c == 'e' || c == 'E')

/-! ### Helper lemmas about `check` and the category methods -/

theorem jsIndexOf_bounds (l : List String) (x : String) :
    -1 ≤ jsIndexOf l x ∧ jsIndexOf l x < l.length := by
  induction l with
  | nil => simp [jsIndexOf]
  | cons a as ih =>
    simp only [jsIndexOf, List.length_cons]
    split
    · constructor
      · norm_num
      · push_cast
        omega
    · split
      · constructor
        · norm_num
        · push_cast
          omega
      · push_cast
        push_cast at ih
        omega

theorem lastIndex_bounds (c : Chain) : -1 ≤ c.lastIndex ∧ c.lastIndex ≤ 5 := by
  rcases h : c.order.getLast? with _ | p
  · simp [Chain.lastIndex, h]
  · have h1 := jsIndexOf_bounds checkList p
    have h2 : (checkList.length : Int) = 6 := by simp [checkList]
    simp only [Chain.lastIndex, h]
    omega

theorem check_error_of_lt (c : Chain) (v : String)
    (h0 : 0 ≤ c.lastIndex) (h1 : jsIndexOf checkList v < c.lastIndex) :
    c.check v = Except.error (SelErr.orderViolation, c) := by
  simp [Chain.check, h0, h1]

theorem check_push (c : Chain) (v : String) (h : c.lastIndex < jsIndexOf checkList v) :
    c.check v = Except.ok { c with order := c.order ++ [v] } := by
  have h2 : ¬(0 ≤ c.lastIndex ∧ jsIndexOf checkList v < c.lastIndex) := by omega
  simp [Chain.check, h2, h]

theorem check_stay (c : Chain) (v : String) (h : c.lastIndex = jsIndexOf checkList v) :
    c.check v = Except.ok c := by
  have h1 : ¬(0 ≤ c.lastIndex ∧ jsIndexOf checkList v < c.lastIndex) := by omega
  have h2 : ¬(c.lastIndex < jsIndexOf checkList v) := by omega
  simp [Chain.check, h1, h2]

theorem check_err_inv (c : Chain) (v : String) (E : SelErr × Chain)
    (h : c.check v = Except.error E) :
    E = (SelErr.orderViolation, c) ∧ 0 ≤ c.lastIndex ∧ jsIndexOf checkList v < c.lastIndex := by
  simp only [Chain.check] at h
  split at h
  · rename_i hc
    exact ⟨by injection h with h2; exact h2.symm, hc⟩
  · split at h <;> simp_all

theorem check_ok_inv (c : Chain) (v : String) (c1 : Chain)
    (h : c.check v = Except.ok c1) :
    (c.lastIndex < jsIndexOf checkList v ∧ c1 = { c with order := c.order ++ [v] })
    ∨ (¬c.lastIndex < jsIndexOf checkList v
        ∧ ¬(0 ≤ c.lastIndex ∧ jsIndexOf checkList v < c.lastIndex) ∧ c1 = c) := by
  simp only [Chain.check] at h
  split at h
  · simp_all
  · rename_i hc
    split at h
    · left
      exact ⟨by assumption, by injection h with h2; exact h2.symm⟩
    · right
      refine ⟨by assumption, hc, by injection h with h2; exact h2.symm⟩

theorem check_fields (c : Chain) (v : String) (c1 : Chain)
    (h : c.check v = Except.ok c1) :
    c1.s1 = c.s1 ∧ c1.s2 = c.s2 ∧ c1.s3 = c.s3 ∧ c1.s4 = c.s4 ∧ c1.s5 = c.s5 ∧ c1.s6 = c.s6 := by
  rcases check_ok_inv c v c1 h with ⟨_, rfl⟩ | ⟨_, _, rfl⟩ <;> simp

theorem lastIndex_push (c : Chain) (v : String) :
    ({ c with order := c.order ++ [v] } : Chain).lastIndex = jsIndexOf checkList v := by
  simp [Chain.lastIndex, List.getLast?_concat]

theorem idx_nonneg (cat : Category) : 0 ≤ cat.idx := by
  cases cat <;> decide

theorem idx_le_five (cat : Category) : cat.idx ≤ 5 := by
  cases cat <;> decide

theorem applyCat_err (c : Chain) (cat : Category) (v : String) (E : SelErr × Chain)
    (h : c.check cat.name = Except.error E) :
    c.applyCat cat v = Except.error E := by
  cases cat <;>
    simp only [Category.name] at h <;>
    simp only [Chain.applyCat, Chain.element, Chain.id, Chain.class_, Chain.attr,
      Chain.pseudoClass, Chain.pseudoElement] <;>
    rw [h]

theorem applyCat_ok_mid (c : Chain) (cat : Category) (v : String) (c1 : Chain)
    (h : c.applyCat cat v = Except.ok c1) :
    ∃ cmid, c.check cat.name = Except.ok cmid ∧ c1.order = cmid.order
      ∧ (cat ≠ Category.element → c1.s1 = c.s1)
      ∧ (cat ≠ Category.id → c1.s2 = c.s2)
      ∧ (cat ≠ Category.pseudoElement → c1.s6 = c.s6) := by
  cases cat with
  | element =>
    simp only [Chain.applyCat, Chain.element] at h
    split at h
    · exact Except.noConfusion h
    · rename_i cmid hc
      have hf := check_fields c _ cmid hc
      refine ⟨cmid, hc, ?_⟩
      split at h
      · injection h with h2
        subst h2
        simp_all
      · exact Except.noConfusion h
  | id =>
    simp only [Chain.applyCat, Chain.id] at h
    split at h
    · exact Except.noConfusion h
    · rename_i cmid hc
      have hf := check_fields c _ cmid hc
      refine ⟨cmid, hc, ?_⟩
      split at h
      · injection h with h2
        subst h2
        simp_all
      · exact Except.noConfusion h
  | class_ =>
    simp only [Chain.applyCat, Chain.class_] at h
    split at h
    · exact Except.noConfusion h
    · rename_i cmid hc
      have hf := check_fields c _ cmid hc
      refine ⟨cmid, hc, ?_⟩
      split at h <;> (injection h with h2; subst h2; simp_all)
  | attr =>
    simp only [Chain.applyCat, Chain.attr] at h
    split at h
    · exact Except.noConfusion h
    · rename_i cmid hc
      have hf := check_fields c _ cmid hc
      refine ⟨cmid, hc, ?_⟩
      split at h <;> (injection h with h2; subst h2; simp_all)
  | pseudoClass =>
    simp only [Chain.applyCat, Chain.pseudoClass] at h
    split at h
    · exact Except.noConfusion h
    · rename_i cmid hc
      have hf := check_fields c _ cmid hc
      refine ⟨cmid, hc, ?_⟩
      split at h <;> (injection h with h2; subst h2; simp_all)
  | pseudoElement =>
    simp only [Chain.applyCat, Chain.pseudoElement] at h
    split at h
    · exact Except.noConfusion h
    · rename_i cmid hc
      have hf := check_fields c _ cmid hc
      refine ⟨cmid, hc, ?_⟩
      split at h
      · injection h with h2
        subst h2
        simp_all
      · exact Except.noConfusion h

theorem applyCat_ok_last (c : Chain) (cat : Category) (v : String) (c1 : Chain)
    (h : c.applyCat cat v = Except.ok c1) :
    c1.lastIndex = cat.idx ∧ c.lastIndex ≤ cat.idx
      ∧ (c.lastIndex = cat.idx → c1.order = c.order)
      ∧ (c.lastIndex < cat.idx → c1.order = c.order ++ [cat.name]) := by
  obtain ⟨cmid, hc, hord, -, -, -⟩ := applyCat_ok_mid c cat v c1 h
  have hlast : c1.lastIndex = cmid.lastIndex := by
    simp [Chain.lastIndex, hord]
  have hnn : 0 ≤ cat.idx := idx_nonneg cat
  have hidx : cat.idx = jsIndexOf checkList cat.name := rfl
  rcases check_ok_inv c cat.name cmid hc with ⟨hlt, rfl⟩ | ⟨hge, hcond, heq⟩
  · refine ⟨?_, by omega, by omega, fun _ => ?_⟩
    · rw [hlast, lastIndex_push, hidx]
    · rw [hord]
  · rw [heq] at hlast hord
    have hpe : c.lastIndex = cat.idx := by omega
    refine ⟨by omega, by omega, fun _ => by rw [hord], by omega⟩

theorem getD_of_not_truthy (o : Option String) (h : truthy o = false) : o.getD "" = "" := by
  cases o with
  | none => rfl
  | some s =>
    simp [truthy] at h
    simp [h]

theorem truthy_eq_true_of_ne_false (b : Bool) (h : ¬ b = false) : b = true := by
  revert h
  cases b <;> simp

theorem inv_empty : ChainInv Chain.empty := by
  refine ⟨?_, ?_, ?_⟩ <;> intro h <;> simp [truthy, Chain.empty] at h

theorem applyCat_err_state (c : Chain) (cat : Category) (v : String)
    (e : SelErr) (c2 : Chain) (hinv : ChainInv c)
    (h : c.applyCat cat v = Except.error (e, c2)) : c2 = c := by
  cases cat with
  | element =>
    simp only [Chain.applyCat, Chain.element] at h
    split at h
    · rename_i E hc
      obtain ⟨hE, -, -⟩ := check_err_inv c _ E hc
      injection h with h2
      rw [hE] at h2
      exact ((Prod.mk.injEq _ _ _ _).mp h2).2.symm
    · rename_i cmid hc
      split at h
      · exact Except.noConfusion h
      · rename_i htr
        injection h with h2
        obtain ⟨-, hc2⟩ := (Prod.mk.injEq _ _ _ _).mp h2
        subst hc2
        have hf := check_fields c _ cmid hc
        have h1 : truthy c.s1 = true := by
          rw [← hf.1]
          exact truthy_eq_true_of_ne_false _ htr
        have h0 : 0 ≤ c.lastIndex := hinv.1 h1
        have he : jsIndexOf checkList "element" = 0 := rfl
        rcases check_ok_inv c "element" cmid hc with ⟨hlt, -⟩ | ⟨-, -, heq⟩
        · omega
        · exact heq
  | id =>
    simp only [Chain.applyCat, Chain.id] at h
    split at h
    · rename_i E hc
      obtain ⟨hE, -, -⟩ := check_err_inv c _ E hc
      injection h with h2
      rw [hE] at h2
      exact ((Prod.mk.injEq _ _ _ _).mp h2).2.symm
    · rename_i cmid hc
      split at h
      · exact Except.noConfusion h
      · rename_i htr
        injection h with h2
        obtain ⟨-, hc2⟩ := (Prod.mk.injEq _ _ _ _).mp h2
        subst hc2
        have hf := check_fields c _ cmid hc
        have h1 : truthy c.s2 = true := by
          rw [← hf.2.1]
          exact truthy_eq_true_of_ne_false _ htr
        have h0 : 1 ≤ c.lastIndex := hinv.2.1 h1
        have he : jsIndexOf checkList "id" = 1 := rfl
        rcases check_ok_inv c "id" cmid hc with ⟨hlt, -⟩ | ⟨-, -, heq⟩
        · omega
        · exact heq
  | class_ =>
    simp only [Chain.applyCat, Chain.class_] at h
    split at h
    · rename_i E hc
      obtain ⟨hE, -, -⟩ := check_err_inv c _ E hc
      injection h with h2
      rw [hE] at h2
      exact ((Prod.mk.injEq _ _ _ _).mp h2).2.symm
    · rename_i cmid hc
      split at h <;> exact Except.noConfusion h
  | attr =>
    simp only [Chain.applyCat, Chain.attr] at h
    split at h
    · rename_i E hc
      obtain ⟨hE, -, -⟩ := check_err_inv c _ E hc
      injection h with h2
      rw [hE] at h2
      exact ((Prod.mk.injEq _ _ _ _).mp h2).2.symm
    · rename_i cmid hc
      split at h <;> exact Except.noConfusion h
  | pseudoClass =>
    simp only [Chain.applyCat, Chain.pseudoClass] at h
    split at h
    · rename_i E hc
      obtain ⟨hE, -, -⟩ := check_err_inv c _ E hc
      injection h with h2
      rw [hE] at h2
      exact ((Prod.mk.injEq _ _ _ _).mp h2).2.symm
    · rename_i cmid hc
      split at h <;> exact Except.noConfusion h
  | pseudoElement =>
    simp only [Chain.applyCat, Chain.pseudoElement] at h
    split at h
    · rename_i E hc
      obtain ⟨hE, -, -⟩ := check_err_inv c _ E hc
      injection h with h2
      rw [hE] at h2
      exact ((Prod.mk.injEq _ _ _ _).mp h2).2.symm
    · rename_i cmid hc
      split at h
      · exact Except.noConfusion h
      · rename_i htr
        injection h with h2
        obtain ⟨-, hc2⟩ := (Prod.mk.injEq _ _ _ _).mp h2
        subst hc2
        have hf := check_fields c _ cmid hc
        have h1 : truthy c.s6 = true := by
          rw [← hf.2.2.2.2.2]
          exact truthy_eq_true_of_ne_false _ htr
        have h0 : 5 ≤ c.lastIndex := hinv.2.2 h1
        have hb := lastIndex_bounds c
        have he : jsIndexOf checkList "pseudoElement" = 5 := rfl
        rcases check_ok_inv c "pseudoElement" cmid hc with ⟨hlt, -⟩ | ⟨-, -, heq⟩
        · omega
        · exact heq

theorem inv_step (c : Chain) (cat : Category) (v : String) (c1 : Chain)
    (hinv : ChainInv c) (h : c.applyCat cat v = Except.ok c1) : ChainInv c1 := by
  obtain ⟨hlast1, hple, -, -⟩ := applyCat_ok_last c cat v c1 h
  obtain ⟨cmid, hc, hord, hns1, hns2, hns6⟩ := applyCat_ok_mid c cat v c1 h
  have hnn : 0 ≤ cat.idx := idx_nonneg cat
  refine ⟨fun _ => by omega, ?_, ?_⟩
  · intro h2
    by_cases hcat : cat = Category.id
    · subst hcat
      rw [hlast1]
      decide
    · rw [hns2 hcat] at h2
      have h3 := hinv.2.1 h2
      omega
  · intro h2
    by_cases hcat : cat = Category.pseudoElement
    · subst hcat
      rw [hlast1]
      decide
    · rw [hns6 hcat] at h2
      have h3 := hinv.2.2 h2
      omega

theorem runCalls_inv (calls : List (Category × String)) (c0 c : Chain)
    (h : runCalls c0 calls = some c) (hinv : ChainInv c0) : ChainInv c := by
  induction calls generalizing c0 with
  | nil =>
    simp only [runCalls, Option.some.injEq] at h
    rwa [← h]
  | cons p rest ih =>
    obtain ⟨cat, v⟩ := p
    simp only [runCalls] at h
    split at h
    · rename_i c2 hstep
      exact ih c2 h (inv_step c0 cat v c2 hinv hstep)
    · exact Option.noConfusion h

/-! ### Claim theorems: selector builder -/

/-- C1: every category call runs the ordering check first: whenever the
canonical index of the incoming category is strictly below the last
recorded index, the call fails with the ordering error (carrying the
exact message), regardless of any duplicate state — so the ordering
error takes priority over the duplicate error. -/
theorem C1_ordering_check_first (c : Chain) (cat : Category) (v : String)
    (h0 : 0 ≤ c.lastIndex) (h1 : cat.idx < c.lastIndex) :
    c.applyCat cat v = Except.error (SelErr.orderViolation, c)
    ∧ SelErr.message SelErr.orderViolation
        = "Selector parts should be arranged in the following order: element, id, class, attribute, pseudo-class, pseudo-element" :=
  ⟨applyCat_err c cat v _ (check_error_of_lt c cat.name h0 h1), rfl⟩

/-- Witness for C1: `id` with value `x` followed by `element` with value `y` raises the
ordering error, not the duplicate error. -/
theorem C1_witness :
    (⟨none, some "#x", none, none, none, none, ["id"]⟩ : Chain).applyCat Category.element "y"
      = Except.error (SelErr.orderViolation, ⟨none, some "#x", none, none, none, none, ["id"]⟩)
    ∧ SelErr.message SelErr.orderViolation
        = "Selector parts should be arranged in the following order: element, id, class, attribute, pseudo-class, pseudo-element" :=
  C1_ordering_check_first _ Category.element "y" (by decide) (by decide)

/-- C2 counterexample: after `element` is called with the empty string, the stored fragment is the
empty string, which is falsy, so a second `element` call overwrites it
and succeeds instead of failing with the duplicate error. -/
theorem C2_counterexample :
    (Chain.empty.element "" >>= fun ch => ch.element "y")
      = Except.ok (⟨some "y", none, none, none, none, none, ["element"]⟩ : Chain)
    ∧ errKind (Chain.empty.element "" >>= fun ch => ch.element "y") ≠ some SelErr.duplicate := by
  exact ⟨rfl, by decide⟩

/-- C2 amended: when the ordering check passes, a second `element`,
`id`, or `pseudoElement` call fails with the duplicate error provided
the stored fragment is truthy (non-empty); `id` and `pseudoElement`
always store non-empty fragments, while an empty `element` fragment is
treated as absent and overwritten. -/
theorem C2_amended_duplicate (c : Chain) (v : String) :
    (c.lastIndex ≤ 0 → truthy c.s1 = true → errKind (c.element v) = some SelErr.duplicate)
    ∧ (c.lastIndex ≤ 1 → truthy c.s2 = true → errKind (c.id v) = some SelErr.duplicate)
    ∧ (truthy c.s6 = true → errKind (c.pseudoElement v) = some SelErr.duplicate) := by
  refine ⟨fun hp ht => ?_, fun hp ht => ?_, fun ht => ?_⟩
  · rcases hc : c.check "element" with E | cmid
    · obtain ⟨-, h0, h1⟩ := check_err_inv c _ E hc
      have he : jsIndexOf checkList "element" = 0 := rfl
      omega
    · have hf := check_fields c _ cmid hc
      simp [Chain.element, hc, hf.1, ht, errKind]
  · rcases hc : c.check "id" with E | cmid
    · obtain ⟨-, h0, h1⟩ := check_err_inv c _ E hc
      have he : jsIndexOf checkList "id" = 1 := rfl
      omega
    · have hf := check_fields c _ cmid hc
      simp [Chain.id, hc, hf.2.1, ht, errKind]
  · rcases hc : c.check "pseudoElement" with E | cmid
    · obtain ⟨-, h0, h1⟩ := check_err_inv c _ E hc
      have he : jsIndexOf checkList "pseudoElement" = 5 := rfl
      have hb := lastIndex_bounds c
      omega
    · have hf := check_fields c _ cmid hc
      simp [Chain.pseudoElement, hc, hf.2.2.2.2.2, ht, errKind]

/-- Witness for C2 (amended). -/
theorem C2_witness :
    errKind ((⟨some "a", some "#x", none, none, none, some "::b", []⟩ : Chain).element "v")
      = some SelErr.duplicate
    ∧ errKind ((⟨some "a", some "#x", none, none, none, some "::b", []⟩ : Chain).id "v")
      = some SelErr.duplicate
    ∧ errKind ((⟨some "a", some "#x", none, none, none, some "::b", []⟩ : Chain).pseudoElement "v")
      = some SelErr.duplicate :=
  ⟨(C2_amended_duplicate _ "v").1 (by decide) (by decide),
   (C2_amended_duplicate _ "v").2.1 (by decide) (by decide),
   (C2_amended_duplicate _ "v").2.2 (by decide)⟩

/-- C5: the repeatable categories `class`, `attr`, `pseudoClass` never
fail when the ordering check passes, and append `.value`, `[value]`,
`:value` to the stored fragment (initialised from empty when absent);
three `class` calls with `a`, `b`, `c` yield the fragment `.a.b.c`. -/
theorem C5_repeatable_append (c : Chain) (v : String) :
    (c.lastIndex ≤ 2 → ∃ c2, c.class_ v = Except.ok c2
      ∧ c2.s3 = some (c.s3.getD "" ++ ("." ++ v)))
    ∧ (c.lastIndex ≤ 3 → ∃ c2, c.attr v = Except.ok c2
      ∧ c2.s4 = some (c.s4.getD "" ++ ("[" ++ v ++ "]")))
    ∧ (c.lastIndex ≤ 4 → ∃ c2, c.pseudoClass v = Except.ok c2
      ∧ c2.s5 = some (c.s5.getD "" ++ (":" ++ v)))
    ∧ ((Chain.empty.class_ "a" >>= fun ch => ch.class_ "b") >>= fun ch => ch.class_ "c")
      = Except.ok (⟨none, none, some ".a.b.c", none, none, none, ["class"]⟩ : Chain) := by
  refine ⟨fun hp => ?_, fun hp => ?_, fun hp => ?_, rfl⟩
  · rcases hc : c.check "class" with E | cmid
    · obtain ⟨-, h0, h1⟩ := check_err_inv c _ E hc
      have he : jsIndexOf checkList "class" = 2 := rfl
      omega
    · have hf := check_fields c _ cmid hc
      by_cases ht : truthy cmid.s3 = false
      · refine ⟨{ cmid with s3 := some ("." ++ v) }, ?_, ?_⟩
        · simp [Chain.class_, hc, ht]
        · simp only []
          rw [← hf.2.2.1, getD_of_not_truthy _ ht, String.empty_append]
      · have ht2 := truthy_eq_true_of_ne_false _ ht
        refine ⟨{ cmid with s3 := some (cmid.s3.getD "" ++ ("." ++ v)) }, ?_, ?_⟩
        · simp [Chain.class_, hc, ht2]
        · simp [hf.2.2.1]
  · rcases hc : c.check "attr" with E | cmid
    · obtain ⟨-, h0, h1⟩ := check_err_inv c _ E hc
      have he : jsIndexOf checkList "attr" = 3 := rfl
      omega
    · have hf := check_fields c _ cmid hc
      by_cases ht : truthy cmid.s4 = false
      · refine ⟨{ cmid with s4 := some ("[" ++ v ++ "]") }, ?_, ?_⟩
        · simp [Chain.attr, hc, ht]
        · simp only []
          rw [← hf.2.2.2.1, getD_of_not_truthy _ ht, String.empty_append]
      · have ht2 := truthy_eq_true_of_ne_false _ ht
        refine ⟨{ cmid with s4 := some (cmid.s4.getD "" ++ ("[" ++ v ++ "]")) }, ?_, ?_⟩
        · simp [Chain.attr, hc, ht2]
        · simp [hf.2.2.2.1]
  · rcases hc : c.check "pseudoClass" with E | cmid
    · obtain ⟨-, h0, h1⟩ := check_err_inv c _ E hc
      have he : jsIndexOf checkList "pseudoClass" = 4 := rfl
      omega
    · have hf := check_fields c _ cmid hc
      by_cases ht : truthy cmid.s5 = false
      · refine ⟨{ cmid with s5 := some (":" ++ v) }, ?_, ?_⟩
        · simp [Chain.pseudoClass, hc, ht]
        · simp only []
          rw [← hf.2.2.2.2.1, getD_of_not_truthy _ ht, String.empty_append]
      · have ht2 := truthy_eq_true_of_ne_false _ ht
        refine ⟨{ cmid with s5 := some (cmid.s5.getD "" ++ (":" ++ v)) }, ?_, ?_⟩
        · simp [Chain.pseudoClass, hc, ht2]
        · simp [hf.2.2.2.2.1]

/-- Witness for C5. -/
theorem C5_witness :
    (∃ c2, Chain.empty.class_ "x" = Except.ok c2
      ∧ c2.s3 = some (Chain.empty.s3.getD "" ++ ("." ++ "x")))
    ∧ (∃ c2, Chain.empty.attr "x" = Except.ok c2
      ∧ c2.s4 = some (Chain.empty.s4.getD "" ++ ("[" ++ "x" ++ "]")))
    ∧ (∃ c2, Chain.empty.pseudoClass "x" = Except.ok c2
      ∧ c2.s5 = some (Chain.empty.s5.getD "" ++ (":" ++ "x"))) :=
  ⟨(C5_repeatable_append Chain.empty "x").1 (by decide),
   (C5_repeatable_append Chain.empty "x").2.1 (by decide),
   (C5_repeatable_append Chain.empty "x").2.2.1 (by decide)⟩

/-- C6: a successful category call leaves the last-category pointer at
the category's own index: it advances exactly when the incoming index is
strictly greater than the last recorded one and stays unchanged when
they are equal; afterwards a repeat of the same category passes the
ordering check while every strictly earlier category is rejected. -/
theorem C6_pointer_advance (c : Chain) (cat : Category) (v : String) (c1 : Chain)
    (h : c.applyCat cat v = Except.ok c1) :
    c1.lastIndex = cat.idx
    ∧ (c.lastIndex = cat.idx → c1.order = c.order)
    ∧ (c.lastIndex < cat.idx → c1.order = c.order ++ [cat.name])
    ∧ c1.check cat.name = Except.ok c1
    ∧ (∀ cat2 : Category, cat2.idx < cat.idx →
        c1.check cat2.name = Except.error (SelErr.orderViolation, c1)) := by
  obtain ⟨hlast1, hple, heq, hlt⟩ := applyCat_ok_last c cat v c1 h
  have hnn := idx_nonneg cat
  refine ⟨hlast1, heq, hlt, ?_, ?_⟩
  · refine check_stay c1 cat.name ?_
    rw [hlast1]
    rfl
  · intro cat2 h2
    refine check_error_of_lt c1 cat2.name (by omega) ?_
    rw [hlast1]
    exact h2

/-- Witness for C6: the first `id` call (value `x`) on a fresh chain. -/
theorem C6_witness :
    (⟨none, some "#x", none, none, none, none, ["id"]⟩ : Chain).lastIndex = Category.id.idx
    ∧ (Chain.empty.lastIndex = Category.id.idx →
        (⟨none, some "#x", none, none, none, none, ["id"]⟩ : Chain).order = Chain.empty.order)
    ∧ (Chain.empty.lastIndex < Category.id.idx →
        (⟨none, some "#x", none, none, none, none, ["id"]⟩ : Chain).order
          = Chain.empty.order ++ [Category.id.name])
    ∧ (⟨none, some "#x", none, none, none, none, ["id"]⟩ : Chain).check Category.id.name
        = Except.ok ⟨none, some "#x", none, none, none, none, ["id"]⟩
    ∧ (∀ cat2 : Category, cat2.idx < Category.id.idx →
        (⟨none, some "#x", none, none, none, none, ["id"]⟩ : Chain).check cat2.name
          = Except.error (SelErr.orderViolation,
              ⟨none, some "#x", none, none, none, none, ["id"]⟩)) :=
  C6_pointer_advance Chain.empty Category.id "x" _ rfl

/-- C9: on every chain reachable through the public call sequence, a
failing category call (either error) leaves the stored fragments and the
order record exactly as they were, so a later `stringify` returns the
same string as before the failing call. -/
theorem C9_error_preserves_state (calls : List (Category × String)) (c : Chain)
    (hrun : runCalls Chain.empty calls = some c)
    (cat : Category) (v : String) (e : SelErr) (c2 : Chain)
    (herr : c.applyCat cat v = Except.error (e, c2)) :
    c2 = c ∧ c2.stringify = c.stringify := by
  have hinv := runCalls_inv calls Chain.empty c hrun inv_empty
  have h2 := applyCat_err_state c cat v e c2 hinv herr
  exact ⟨h2, by rw [h2]⟩

/-- Witness for C9: the chain built by calling `id` with `x`, after the failing `element` call. -/
theorem C9_witness :
    (⟨none, some "#x", none, none, none, none, ["id"]⟩ : Chain)
      = ⟨none, some "#x", none, none, none, none, ["id"]⟩
    ∧ (⟨none, some "#x", none, none, none, none, ["id"]⟩ : Chain).stringify
      = (⟨none, some "#x", none, none, none, none, ["id"]⟩ : Chain).stringify :=
  C9_error_preserves_state [(Category.id, "x")] _ rfl
    Category.element "y" SelErr.orderViolation _ rfl

/-! ### Claim theorems: stringify and the facade -/

/-- C3: `stringify` returns the stored fragments concatenated in
canonical category order with empty (absent) categories skipped; the
model is pure, so the chain is not mutated and any repeated call yields
the same string; the spec's example chain renders as expected. -/
theorem C3_stringify_canonical :
    (∀ c : Chain, c.stringify
      = c.s1.getD "" ++ c.s2.getD "" ++ c.s3.getD "" ++ c.s4.getD "" ++ c.s5.getD "" ++ c.s6.getD "")
    ∧ Except.map Chain.stringify
        ((cssSelectorBuilder.element "a" >>= fun ch => ch.attr "href$=\".png\"")
          >>= fun ch => ch.pseudoClass "focus")
      = Except.ok "a[href$=\".png\"]:focus" := by
  refine ⟨fun c => ?_, rfl⟩
  obtain ⟨o1, o2, o3, o4, o5, o6, ord⟩ := c
  cases o1 <;> cases o2 <;> cases o3 <;> cases o4 <;> cases o5 <;> cases o6 <;>
    simp [Chain.stringify, Chain.values, String.join, String.empty_append,
      String.append_empty, String.append_assoc]

/-- C4 counterexample: an operand whose only fragment is the empty
string (from calling `element` with the empty string) still contributes its (empty) rendering as a
piece: the pending sequence becomes the empty string followed by `+` and `a`, not just `+` and `a`, and `stringify` returns the string ` + a` with a leading space. -/
theorem C4_counterexample :
    Chain.empty.element ""
      = Except.ok (⟨some "", none, none, none, none, none, ["element"]⟩ : Chain)
    ∧ (cssSelectorBuilder.combine ⟨[]⟩
        (Operand.chain ⟨some "", none, none, none, none, none, ["element"]⟩) "+"
        (Operand.chain ⟨some "a", none, none, none, none, none, ["element"]⟩)).combiner
      = ["", "+", "a"]
    ∧ (cssSelectorBuilder.combine ⟨[]⟩
        (Operand.chain ⟨some "", none, none, none, none, none, ["element"]⟩) "+"
        (Operand.chain ⟨some "a", none, none, none, none, none, ["element"]⟩)).combiner
      ≠ ["+", "a"]
    ∧ (cssSelectorBuilder.stringify (cssSelectorBuilder.combine ⟨[]⟩
        (Operand.chain ⟨some "", none, none, none, none, none, ["element"]⟩) "+"
        (Operand.chain ⟨some "a", none, none, none, none, none, ["element"]⟩))).1
      = " + a" :=
  ⟨rfl, rfl, by decide, rfl⟩

/-- C4 amended: `combine` prepends, in order, the rendering of each
chain operand (unconditionally, even when that rendering is the empty
string; the facade operand contributes nothing), then the combinator
token when truthy, to the shared pending sequence, without draining it;
`stringify` joins the pending sequence with single spaces, drains it,
and returns the joined string. -/
theorem C4_amended_combine (f : Facade) (s1 s2 : Operand) (comb : String) :
    (cssSelectorBuilder.combine f s1 comb s2).combiner
      = renderOperand s1 ++ (if comb = "" then [] else [comb]) ++ renderOperand s2 ++ f.combiner
    ∧ cssSelectorBuilder.stringify f = (String.intercalate " " f.combiner, Facade.mk []) := by
  constructor
  · cases s1 <;> cases s2 <;> by_cases h : comb = "" <;>
      simp [cssSelectorBuilder.combine, renderOperand, h]
  · rfl

/-! ### String escaping round trip -/

theorem hexVal_hexDigitChar (d : Nat) (h : d < 16) :
    hexVal (hexDigitChar d) = some d := by
  interval_cases d <;> rfl

theorem parseStrF_quote (f : Nat) (rest : List Char) :
    parseStrF (f + 1) ('"' :: rest) = some ([], rest) := by
  simp [parseStrF]

theorem parseStrF_plain (f : Nat) (c : Char) (cs : List Char)
    (h1 : ¬ c = '"') (h2 : ¬ c = '\\') (h3 : ¬ c.toNat < 32) :
    parseStrF (f + 1) (c :: cs) = (parseStrF f cs).map (fun p => (c :: p.1, p.2)) := by
  simp [parseStrF, h1, h2, h3]

theorem parseStrF_esc (f : Nat) (cs : List Char) :
    parseStrF (f + 1) ('\\' :: cs)
      = match parseEscUnit cs with
        | none => none
        | some (d, cs2) => (parseStrF f cs2).map (fun p => (d :: p.1, p.2)) := by
  simp [parseStrF]

theorem parseEscUnit_u00 (a b : Nat) (cs : List Char) (ha : a < 16) (hb : b < 16) :
    parseEscUnit ('u' :: '0' :: '0' :: hexDigitChar a :: hexDigitChar b :: cs)
      = some (Char.ofNat (a * 16 + b), cs) := by
  have hz : hexVal '0' = some 0 := rfl
  have hred : ((0 * 16 + 0) * 16 + a) * 16 + b = a * 16 + b := by ring
  simp only [parseEscUnit, readHex4, hz, hexVal_hexDigitChar _ ha, hexVal_hexDigitChar _ hb]
  simp only [hred]
  have h1 : ¬(55296 ≤ a * 16 + b ∧ a * 16 + b ≤ 56319) := by omega
  have h2 : ¬(56320 ≤ a * 16 + b ∧ a * 16 + b ≤ 57343) := by omega
  rw [if_neg (by decide)]
  rw [if_neg h1, if_neg h2]
  simp

theorem parseEscUnit_quote (cs : List Char) : parseEscUnit ('"' :: cs) = some ('"', cs) := by
  simp [parseEscUnit]

theorem parseEscUnit_back (cs : List Char) : parseEscUnit ('\\' :: cs) = some ('\\', cs) := by
  simp [parseEscUnit]

theorem parseEscUnit_b (cs : List Char) : parseEscUnit ('b' :: cs) = some ('\x08', cs) := by
  simp [parseEscUnit]

theorem parseEscUnit_f (cs : List Char) : parseEscUnit ('f' :: cs) = some ('\x0c', cs) := by
  simp [parseEscUnit]

theorem parseEscUnit_n (cs : List Char) : parseEscUnit ('n' :: cs) = some ('\n', cs) := by
  simp [parseEscUnit]

theorem parseEscUnit_r (cs : List Char) : parseEscUnit ('r' :: cs) = some ('\r', cs) := by
  simp [parseEscUnit]

theorem parseEscUnit_t (cs : List Char) : parseEscUnit ('t' :: cs) = some ('\t', cs) := by
  simp [parseEscUnit]

theorem parseStrF_escString (s rest : List Char) :
    ∀ f, (escString s).length < f →
    parseStrF f (escString s ++ '"' :: rest) = some (s, rest) := by
  induction s with
  | nil =>
    intro f hf
    obtain ⟨f2, rfl⟩ : ∃ f2, f = f2 + 1 := ⟨f - 1, by omega⟩
    exact parseStrF_quote f2 rest
  | cons c cs ih =>
    intro f hf
    have hlen : (escString (c :: cs)).length = (escChar c).length + (escString cs).length := by
      simp [escString]
    show parseStrF f ((escChar c ++ escString cs) ++ '"' :: rest) = _
    by_cases h1 : c = '"'
    · subst h1
      have hl : (escChar '"').length = 2 := rfl
      obtain ⟨f2, rfl⟩ : ∃ f2, f = f2 + 1 := ⟨f - 1, by omega⟩
      rw [show escChar '"' = ['\\', '"'] from rfl]
      simp only [List.cons_append, List.nil_append, parseStrF_esc, parseEscUnit_quote]
      rw [ih f2 (by omega)]
      rfl
    · by_cases h2 : c = '\\'
      · subst h2
        have hl : (escChar '\\').length = 2 := rfl
        obtain ⟨f2, rfl⟩ : ∃ f2, f = f2 + 1 := ⟨f - 1, by omega⟩
        rw [show escChar '\\' = ['\\', '\\'] from rfl]
        simp only [List.cons_append, List.nil_append, parseStrF_esc, parseEscUnit_back]
        rw [ih f2 (by omega)]
        rfl
      · by_cases h3 : c = '\x08'
        · subst h3
          have hl : (escChar '\x08').length = 2 := rfl
          obtain ⟨f2, rfl⟩ : ∃ f2, f = f2 + 1 := ⟨f - 1, by omega⟩
          rw [show escChar '\x08' = ['\\', 'b'] from rfl]
          simp only [List.cons_append, List.nil_append, parseStrF_esc, parseEscUnit_b]
          rw [ih f2 (by omega)]
          rfl
        · by_cases h4 : c = '\x0c'
          · subst h4
            have hl : (escChar '\x0c').length = 2 := rfl
            obtain ⟨f2, rfl⟩ : ∃ f2, f = f2 + 1 := ⟨f - 1, by omega⟩
            rw [show escChar '\x0c' = ['\\', 'f'] from rfl]
            simp only [List.cons_append, List.nil_append, parseStrF_esc, parseEscUnit_f]
            rw [ih f2 (by omega)]
            rfl
          · by_cases h5 : c = '\n'
            · subst h5
              have hl : (escChar '\n').length = 2 := rfl
              obtain ⟨f2, rfl⟩ : ∃ f2, f = f2 + 1 := ⟨f - 1, by omega⟩
              rw [show escChar '\n' = ['\\', 'n'] from rfl]
              simp only [List.cons_append, List.nil_append, parseStrF_esc, parseEscUnit_n]
              rw [ih f2 (by omega)]
              rfl
            · by_cases h6 : c = '\r'
              · subst h6
                have hl : (escChar '\r').length = 2 := rfl
                obtain ⟨f2, rfl⟩ : ∃ f2, f = f2 + 1 := ⟨f - 1, by omega⟩
                rw [show escChar '\r' = ['\\', 'r'] from rfl]
                simp only [List.cons_append, List.nil_append, parseStrF_esc, parseEscUnit_r]
                rw [ih f2 (by omega)]
                rfl
              · by_cases h7 : c = '\t'
                · subst h7
                  have hl : (escChar '\t').length = 2 := rfl
                  obtain ⟨f2, rfl⟩ : ∃ f2, f = f2 + 1 := ⟨f - 1, by omega⟩
                  rw [show escChar '\t' = ['\\', 't'] from rfl]
                  simp only [List.cons_append, List.nil_append, parseStrF_esc, parseEscUnit_t]
                  rw [ih f2 (by omega)]
                  rfl
                · by_cases h8 : c.toNat < 32
                  · have hesc : escChar c
                        = ['\\', 'u', '0', '0', hexDigitChar (c.toNat / 16),
                            hexDigitChar (c.toNat % 16)] := by
                      simp [escChar, h1, h2, h3, h4, h5, h6, h7, h8]
                    have hl : (escChar c).length = 6 := by rw [hesc]; rfl
                    obtain ⟨f2, rfl⟩ : ∃ f2, f = f2 + 1 := ⟨f - 1, by omega⟩
                    rw [hesc]
                    simp only [List.cons_append, List.nil_append, parseStrF_esc]
                    rw [parseEscUnit_u00 (c.toNat / 16) (c.toNat % 16) _ (by omega) (by omega)]
                    have hval : c.toNat / 16 * 16 + c.toNat % 16 = c.toNat := by omega
                    rw [hval, Char.ofNat_toNat]
                    show Option.map (fun p => (c :: p.1, p.2))
                        (parseStrF f2 (escString cs ++ '"' :: rest)) = _
                    rw [ih f2 (by omega)]
                    rfl
                  · have hesc : escChar c = [c] := by
                      simp [escChar, h1, h2, h3, h4, h5, h6, h7, h8]
                    have hl : (escChar c).length = 1 := by rw [hesc]; rfl
                    obtain ⟨f2, rfl⟩ : ∃ f2, f = f2 + 1 := ⟨f - 1, by omega⟩
                    rw [hesc]
                    simp only [List.cons_append, List.nil_append]
                    rw [parseStrF_plain f2 c _ h1 h2 h8, ih f2 (by omega)]
                    rfl

theorem parseStr_escString (s rest : List Char) :
    parseStr (escString s ++ '"' :: rest) = some (s, rest) := by
  apply parseStrF_escString
  simp only [List.length_append, List.length_cons]
  omega

/-! ### Number round trip -/

theorem digit_ne_of (c d : Char) (h : c.isDigit = true) (hd : d.isDigit = false) : c ≠ d := by
  intro he
  rw [he] at h
  rw [h] at hd
  exact Bool.noConfusion hd

theorem jsonWs_digit (c : Char) (h : c.isDigit = true) : jsonWs c = false := by
  have w1 : c ≠ ' ' := digit_ne_of c ' ' h rfl
  have w2 : c ≠ '\t' := digit_ne_of c '\t' h rfl
  have w3 : c ≠ '\n' := digit_ne_of c '\n' h rfl
  have w4 : c ≠ '\r' := digit_ne_of c '\r' h rfl
  simp [jsonWs, w1, w2, w3, w4]

theorem skipWs_cons (c : Char) (cs : List Char) (h : jsonWs c = false) :
    skipWs (c :: cs) = c :: cs := by
  simp [skipWs, h]

theorem digit_char_spec (d : Nat) (h : d < 10) :
    (Char.ofNat (48 + d)).isDigit = true
    ∧ (Char.ofNat (48 + d)).toNat - 48 = d
    ∧ (1 ≤ d → Char.ofNat (48 + d) ≠ '0') := by
  interval_cases d <;> refine ⟨rfl, rfl, fun h1 => ?_⟩
  · exact absurd h1 (by omega)
  all_goals decide

theorem natDigits_spec : ∀ k n, n ≤ k →
    (∀ c ∈ natDigits n, c.isDigit = true)
    ∧ (∀ acc, List.foldl (fun a c => a * 10 + (c.toNat - 48)) acc (natDigits n)
        = acc * 10 ^ (natDigits n).length + n)
    ∧ (1 ≤ n → ∃ c cs, natDigits n = c :: cs ∧ c ≠ '0') := by
  intro k
  induction k with
  | zero =>
    intro n hn
    have hn0 : n = 0 := by omega
    subst hn0
    rw [natDigits]
    refine ⟨?_, ?_, ?_⟩
    · intro c hc
      simp at hc
      subst hc
      rfl
    · intro acc
      simp [List.foldl]
    · intro h1
      exact absurd h1 (by omega)
  | succ k ih =>
    intro n hn
    by_cases h10 : n < 10
    · rw [natDigits, dif_pos h10]
      obtain ⟨hd1, hd2, hd3⟩ := digit_char_spec n h10
      refine ⟨?_, ?_, ?_⟩
      · intro c hc
        simp at hc
        subst hc
        exact hd1
      · intro acc
        simp [List.foldl, hd2]
      · intro h1
        exact ⟨_, _, rfl, hd3 h1⟩
    · rw [natDigits, dif_neg h10]
      have hrec : n / 10 ≤ k := by omega
      obtain ⟨ihd, ihf, ihh⟩ := ih (n / 10) hrec
      have hm : n % 10 < 10 := by omega
      obtain ⟨hd1, hd2, -⟩ := digit_char_spec (n % 10) hm
      refine ⟨?_, ?_, ?_⟩
      · intro c hc
        simp only [List.mem_append, List.mem_singleton] at hc
        rcases hc with hc | hc
        · exact ihd c hc
        · subst hc
          exact hd1
      · intro acc
        rw [List.foldl_append]
        simp only [List.foldl, hd2]
        rw [ihf acc]
        rw [List.length_append, List.length_cons]
        simp only [List.length_nil]
        have hp : 10 ^ ((natDigits (n / 10)).length + (0 + 1))
            = 10 ^ (natDigits (n / 10)).length * 10 := by
          rw [pow_succ]
        rw [hp]
        have := Nat.div_add_mod n 10
        set L := 10 ^ (natDigits (n / 10)).length
        calc (acc * L + n / 10) * 10 + n % 10
            = acc * (L * 10) + (n / 10 * 10 + n % 10) := by ring
          _ = acc * (L * 10) + n := by omega
      · intro h1
        obtain ⟨c, cs, hcc, hc0⟩ := ihh (by omega)
        rw [hcc]
        exact ⟨c, cs ++ [Char.ofNat (48 + n % 10)], rfl, hc0⟩

theorem digitsVal_natDigits (n : Nat) : digitsVal (natDigits n) = n := by
  obtain ⟨-, hf, -⟩ := natDigits_spec n n le_rfl
  have := hf 0
  simpa [digitsVal] using this

theorem natDigits_ne_nil (n : Nat) : natDigits n ≠ [] := by
  rw [natDigits]
  split <;> simp

theorem spanDigits_eval (ds rest : List Char)
    (hd : ∀ c ∈ ds, c.isDigit = true)
    (hr : ∀ c cs2, rest = c :: cs2 → c.isDigit = false) :
    spanDigits (ds ++ rest) = (ds, rest) := by
  induction ds with
  | nil =>
    cases rest with
    | nil => rfl
    | cons c cs2 =>
      have := hr c cs2 rfl
      simp [spanDigits, this]
  | cons d ds ih =>
    have hdd : d.isDigit = true := hd d (by simp)
    have ihh := ih (fun c hc => hd c (by simp [hc]))
    simp [spanDigits, hdd, ihh]

theorem numSafe_not_digit (rest : List Char) (h : numSafe rest = true) :
    ∀ c cs2, rest = c :: cs2 → c.isDigit = false := by
  intro c cs2 he
  subst he
  simp [numSafe] at h
  exact h.1.1.1

theorem finishNum_safe (neg : Bool) (i : Nat) (rest : List Char) (h : numSafe rest = true) :
    finishNum neg i rest = some ((if neg then -(i : Int) else (i : Int)), rest) := by
  cases rest with
  | nil => rfl
  | cons c r =>
    simp [numSafe] at h
    obtain ⟨⟨⟨hdg, hdot⟩, he⟩, hE⟩ := h
    simp [finishNum, hdot, he, hE]

theorem parseNumCore_natDigits (neg : Bool) (m : Nat) (rest : List Char)
    (h : numSafe rest = true) :
    parseNumCore neg (natDigits m ++ rest)
      = some ((if neg then -(m : Int) else (m : Int)), rest) := by
  by_cases hm : m = 0
  · subst hm
    rw [show natDigits 0 = ['0'] from by rw [natDigits]; rfl]
    simp only [List.cons_append, List.nil_append, parseNumCore]
    rw [if_pos trivial]
    exact finishNum_safe neg 0 rest h
  · obtain ⟨hd, hfold, hh⟩ := natDigits_spec m m le_rfl
    obtain ⟨c, cs, hcc, hc0⟩ := hh (by omega)
    have hcd : c.isDigit = true := hd c (by rw [hcc]; simp)
    have hspan : spanDigits ((c :: cs) ++ rest) = (c :: cs, rest) := by
      apply spanDigits_eval
      · intro x hx
        apply hd
        rw [hcc]
        exact hx
      · exact numSafe_not_digit rest h
    have hval : digitsVal (c :: cs) = m := by
      rw [← hcc]
      exact digitsVal_natDigits m
    rw [hcc]
    simp only [List.cons_append, parseNumCore]
    rw [if_neg hc0, if_pos hcd]
    simp only [← List.cons_append, hspan, hval]
    exact finishNum_safe neg m rest h

theorem parseNum_intDigits (n : Int) (rest : List Char) (h : numSafe rest = true) :
    parseNum (intDigits n ++ rest) = some (n, rest) := by
  by_cases hn : n < 0
  · rw [intDigits, if_pos hn]
    simp only [List.cons_append, parseNum]
    rw [if_pos trivial, parseNumCore_natDigits true _ rest h]
    have h2 : (((-n).toNat : Int)) = -n := Int.toNat_of_nonneg (by omega)
    simp [h2]
  · rw [intDigits, if_neg hn]
    obtain ⟨c, cs, hcc⟩ : ∃ c cs, natDigits n.toNat = c :: cs := by
      cases hcc : natDigits n.toNat with
      | nil => exact absurd hcc (natDigits_ne_nil _)
      | cons c cs => exact ⟨c, cs, rfl⟩
    have hcd : c.isDigit = true := (natDigits_spec _ _ le_rfl).1 c (by rw [hcc]; simp)
    rw [hcc]
    simp only [List.cons_append, parseNum]
    rw [if_neg (digit_ne_of c '-' hcd rfl)]
    rw [show c :: (cs ++ rest) = (c :: cs) ++ rest from rfl, ← hcc,
      parseNumCore_natDigits false _ rest h]
    have h2 : ((n.toNat : Int)) = n := Int.toNat_of_nonneg (by omega)
    simp [h2]

theorem intDigits_head (n : Int) :
    ∃ c cs, intDigits n = c :: cs ∧ (c = '-' ∨ c.isDigit = true) := by
  by_cases hn : n < 0
  · rw [intDigits, if_pos hn]
    exact ⟨'-', _, rfl, Or.inl rfl⟩
  · rw [intDigits, if_neg hn]
    obtain ⟨c, cs, hcc⟩ : ∃ c cs, natDigits n.toNat = c :: cs := by
      cases hcc : natDigits n.toNat with
      | nil => exact absurd hcc (natDigits_ne_nil _)
      | cons c cs => exact ⟨c, cs, rfl⟩
    have hcd : c.isDigit = true := (natDigits_spec _ _ le_rfl).1 c (by rw [hcc]; simp)
    exact ⟨c, cs, hcc, Or.inr hcd⟩

theorem numHead_facts (c : Char) (h : c = '-' ∨ c.isDigit = true) :
    jsonWs c = false ∧ ¬c = '"' ∧ ¬c = '\x7b' ∧ ¬c = '[' ∧ ¬c = 't' ∧ ¬c = 'f' ∧ ¬c = 'n' := by
  rcases h with rfl | h
  · exact ⟨rfl, by decide, by decide, by decide, by decide, by decide, by decide⟩
  · exact ⟨jsonWs_digit c h, digit_ne_of c '"' h rfl, digit_ne_of c '\x7b' h rfl,
      digit_ne_of c '[' h rfl, digit_ne_of c 't' h rfl, digit_ne_of c 'f' h rfl,
      digit_ne_of c 'n' h rfl⟩

/-! ### Parser/serializer round trip -/

theorem fuelNeed_pos (v : JsonValue) : 1 ≤ fuelNeed v := by
  cases v <;> simp [fuelNeed]

theorem fuelElems_pos (vs : List JsonValue) : 1 ≤ fuelElems vs := by
  cases vs <;> simp [fuelElems]

theorem fuelFields_pos (fs : List (String × JsonValue)) : 1 ≤ fuelFields fs := by
  cases fs with
  | nil => simp [fuelFields]
  | cons p fs => obtain ⟨k, v⟩ := p; simp [fuelFields]

theorem pv_num (f : Nat) (c : Char) (rest : List Char) (h : c = '-' ∨ c.isDigit = true) :
    parseVal (f + 1) (c :: rest) = (parseNum (c :: rest)).map (fun p => (JsonValue.num p.1, p.2)) := by
  obtain ⟨hw, h1, h2, h3, h4, h5, h6⟩ := numHead_facts c h
  simp [parseVal, skipWs, hw, h1, h2, h3, h4, h5, h6]

theorem pv_null (f : Nat) (rest : List Char) :
    parseVal (f + 1) ('n' :: 'u' :: 'l' :: 'l' :: rest) = some (JsonValue.null, rest) := by
  simp [parseVal, skipWs, jsonWs]

theorem pv_true (f : Nat) (rest : List Char) :
    parseVal (f + 1) ('t' :: 'r' :: 'u' :: 'e' :: rest) = some (JsonValue.bool true, rest) := by
  simp [parseVal, skipWs, jsonWs]

theorem pv_false (f : Nat) (rest : List Char) :
    parseVal (f + 1) ('f' :: 'a' :: 'l' :: 's' :: 'e' :: rest)
      = some (JsonValue.bool false, rest) := by
  simp [parseVal, skipWs, jsonWs]

theorem pv_str (f : Nat) (body : List Char) :
    parseVal (f + 1) ('"' :: body)
      = (parseStr body).map (fun p => (JsonValue.str (String.mk p.1), p.2)) := by
  simp [parseVal, skipWs, jsonWs]

theorem pv_arr_empty (f : Nat) (rest : List Char) :
    parseVal (f + 1) ('[' :: ']' :: rest) = some (JsonValue.arr [], rest) := by
  simp [parseVal, skipWs, jsonWs]

theorem pv_arr_cons (f : Nat) (c2 : Char) (r2 : List Char)
    (hw : jsonWs c2 = false) (hne : ¬c2 = ']') :
    parseVal (f + 1) ('[' :: c2 :: r2)
      = (parseElemsRest f (c2 :: r2)).map (fun p => (JsonValue.arr p.1, p.2)) := by
  have hsk1 : skipWs ('[' :: c2 :: r2) = '[' :: c2 :: r2 := skipWs_cons _ _ rfl
  have hsk2 : skipWs (c2 :: r2) = c2 :: r2 := skipWs_cons c2 r2 hw
  simp [parseVal, hsk1, hsk2, hne]

theorem pv_obj_empty (f : Nat) (rest : List Char) :
    parseVal (f + 1) ('\x7b' :: '\x7d' :: rest) = some (JsonValue.obj [], rest) := by
  simp [parseVal, skipWs, jsonWs]

theorem pv_obj_cons (f : Nat) (r2 : List Char) :
    parseVal (f + 1) ('\x7b' :: '"' :: r2)
      = (parseMembersRest f [] ('"' :: r2)).map (fun p => (JsonValue.obj p.1, p.2)) := by
  simp [parseVal, skipWs, jsonWs]

theorem serializeV_head (v : JsonValue) :
    ∃ c cs, serializeV v = c :: cs ∧ jsonWs c = false ∧ ¬c = ']' ∧ ¬c = '\x7d' := by
  cases v with
  | null => exact ⟨'n', _, rfl, rfl, by decide, by decide⟩
  | bool b => cases b
              · exact ⟨'f', _, rfl, rfl, by decide, by decide⟩
              · exact ⟨'t', _, rfl, rfl, by decide, by decide⟩
  | num n =>
    obtain ⟨c, cs, hcc, hor⟩ := intDigits_head n
    refine ⟨c, cs, by simp [serializeV, hcc], (numHead_facts c hor).1, ?_, ?_⟩
    · rcases hor with rfl | hd
      · decide
      · exact digit_ne_of c ']' hd rfl
    · rcases hor with rfl | hd
      · decide
      · exact digit_ne_of c '\x7d' hd rfl
  | str s => exact ⟨'"', _, rfl, rfl, by decide, by decide⟩
  | arr xs => exact ⟨'[', _, rfl, rfl, by decide, by decide⟩
  | obj fs => exact ⟨'\x7b', _, rfl, rfl, by decide, by decide⟩

theorem string_mk_data (s : String) : String.mk s.data = s := rfl

theorem setField_append (acc : List (String × JsonValue)) (k : String) (v : JsonValue)
    (h : k ∉ keysOf acc) : setField acc k v = acc ++ [(k, v)] := by
  induction acc with
  | nil => rfl
  | cons p rest ih =>
    obtain ⟨k0, v0⟩ := p
    simp [keysOf] at h
    have hne : ¬ (k0 = k) := fun he => h.1 he.symm
    have ih2 := ih (by simp [keysOf]; exact h.2)
    simp [setField, hne, ih2]

theorem distinct_iff (l : List String) : distinct l = true ↔ l.Nodup := by
  induction l with
  | nil => simp [distinct]
  | cons k ks ih =>
    simp [distinct, List.nodup_cons, ih, List.contains]

theorem serializeElems_cons2 (v v2 : JsonValue) (vs : List JsonValue) :
    serializeElems (v :: v2 :: vs) = serializeV v ++ ',' :: serializeElems (v2 :: vs) := by
  simp [serializeElems]

theorem serializeFields_one (k : String) (v : JsonValue) :
    serializeFields [(k, v)]
      = '"' :: (escString k.data ++ '"' :: ':' :: serializeV v) := by
  simp [serializeFields]

theorem serializeFields_cons2 (k : String) (v : JsonValue) (p2 : String × JsonValue)
    (fs3 : List (String × JsonValue)) :
    serializeFields ((k, v) :: p2 :: fs3)
      = '"' :: (escString k.data ++ '"' :: ':' ::
          (serializeV v ++ ',' :: serializeFields (p2 :: fs3))) := by
  simp [serializeFields]

theorem parse_rt : ∀ fuel : Nat,
    (∀ v rest, fuelNeed v ≤ fuel → wfKeys v = true → numSafe rest = true →
      parseVal fuel (serializeV v ++ rest) = some (v, rest))
    ∧ (∀ vs rest, vs ≠ [] → fuelElems vs ≤ fuel → wfKeysElems vs = true →
      parseElemsRest fuel (serializeElems vs ++ ']' :: rest) = some (vs, rest))
    ∧ (∀ fs acc rest, fs ≠ [] → fuelFields fs ≤ fuel → wfKeysFields fs = true →
        (keysOf (acc ++ fs)).Nodup →
      parseMembersRest fuel acc (serializeFields fs ++ '\x7d' :: rest) = some (acc ++ fs, rest)) := by
  intro fuel
  induction fuel with
  | zero =>
    refine ⟨?_, ?_, ?_⟩
    · intro v rest hf _ _
      have := fuelNeed_pos v
      omega
    · intro vs rest _ hf _
      have := fuelElems_pos vs
      omega
    · intro fs acc rest _ hf _ _
      have := fuelFields_pos fs
      omega
  | succ f ih =>
    obtain ⟨ihV, ihE, ihM⟩ := ih
    refine ⟨?_, ?_, ?_⟩
    · -- values
      intro v rest hf hwf hns
      cases v with
      | null =>
        simp only [serializeV]
        simp only [List.cons_append, List.nil_append]
        exact pv_null f rest
      | bool b =>
        cases b
        · simp only [serializeV]
          simp only [List.cons_append, List.nil_append]
          exact pv_false f rest
        · simp only [serializeV]
          simp only [List.cons_append, List.nil_append]
          exact pv_true f rest
      | num n =>
        simp only [serializeV]
        obtain ⟨c, cs, hcc, hor⟩ := intDigits_head n
        rw [hcc]
        simp only [List.cons_append]
        rw [pv_num f c (cs ++ rest) hor]
        rw [show c :: (cs ++ rest) = (c :: cs) ++ rest from rfl, ← hcc,
          parseNum_intDigits n rest hns]
        rfl
      | str s =>
        simp only [serializeV, List.cons_append, List.append_assoc, List.singleton_append,
          List.nil_append]
        rw [pv_str f _, parseStr_escString s.data rest]
        simp [string_mk_data]
      | arr xs =>
        simp only [serializeV, List.cons_append, List.append_assoc, List.singleton_append,
          List.nil_append]
        cases xs with
        | nil =>
          simp only [serializeElems, List.nil_append]
          exact pv_arr_empty f rest
        | cons v vs =>
          obtain ⟨c, cs, hcc, hw, hne1, hne2⟩ := serializeV_head v
          obtain ⟨tail, htail⟩ : ∃ tail, serializeElems (v :: vs) = serializeV v ++ tail := by
            cases vs with
            | nil => exact ⟨[], by simp [serializeElems]⟩
            | cons v2 vs3 =>
              exact ⟨',' :: serializeElems (v2 :: vs3), by simp [serializeElems]⟩
          have hshape : serializeElems (v :: vs) ++ ']' :: rest
              = c :: (cs ++ (tail ++ ']' :: rest)) := by
            rw [htail, hcc]
            simp
          rw [hshape, pv_arr_cons f c _ hw hne1]
          rw [show c :: (cs ++ (tail ++ ']' :: rest)) = (c :: cs) ++ (tail ++ ']' :: rest) from rfl]
          rw [← hcc, ← List.append_assoc, ← htail]
          have hfe : fuelElems (v :: vs) ≤ f := by
            simp only [fuelNeed] at hf
            omega
          have hwe : wfKeysElems (v :: vs) = true := by
            simp only [wfKeys] at hwf
            exact hwf
          rw [ihE (v :: vs) rest (by simp) hfe hwe]
          rfl
      | obj fs =>
        simp only [serializeV, List.cons_append, List.append_assoc, List.singleton_append,
          List.nil_append]
        cases fs with
        | nil =>
          simp only [serializeFields, List.nil_append]
          exact pv_obj_empty f rest
        | cons p fs2 =>
          obtain ⟨k, v⟩ := p
          obtain ⟨r2, hr2⟩ : ∃ r2, serializeFields ((k, v) :: fs2) = '"' :: r2 := by
            cases fs2 with
            | nil =>
              refine ⟨(escString k.data ++ ['"']) ++ ((':' :: serializeV v) ++ []), ?_⟩
              simp [serializeFields]
            | cons p2 fs3 =>
              refine ⟨(escString k.data ++ ['"'])
                ++ ((':' :: serializeV v) ++ (',' :: serializeFields (p2 :: fs3))), ?_⟩
              simp [serializeFields]
          have hshape : serializeFields ((k, v) :: fs2) ++ '\x7d' :: rest
              = '"' :: (r2 ++ '\x7d' :: rest) := by
            rw [hr2]
            simp
          rw [hshape, pv_obj_cons f _]
          rw [show ('"' :: (r2 ++ '\x7d' :: rest)) = ('"' :: r2) ++ '\x7d' :: rest from rfl, ← hr2]
          have hff : fuelFields ((k, v) :: fs2) ≤ f := by
            simp only [fuelNeed] at hf
            omega
          have hwff : wfKeysFields ((k, v) :: fs2) = true := by
            simp only [wfKeys, Bool.and_eq_true] at hwf
            exact hwf.2
          have hnd : (keysOf (([] : List (String × JsonValue)) ++ (k, v) :: fs2)).Nodup := by
            simp only [List.nil_append]
            rw [← distinct_iff]
            simp only [wfKeys, Bool.and_eq_true] at hwf
            exact hwf.1
          rw [ihM ((k, v) :: fs2) [] rest (by simp) hff hwff hnd]
          simp
    · -- array elements
      intro vs rest hvs hf hwf
      cases vs with
      | nil => exact absurd rfl hvs
      | cons v vs2 =>
        have hfv : fuelNeed v ≤ f := by
          simp only [fuelElems] at hf
          have h1 : fuelNeed v ≤ Nat.max (fuelNeed v) (fuelElems vs2) := Nat.le_max_left _ _
          omega
        have hfvs : fuelElems vs2 ≤ f := by
          simp only [fuelElems] at hf
          have h1 : fuelElems vs2 ≤ Nat.max (fuelNeed v) (fuelElems vs2) := Nat.le_max_right _ _
          omega
        have hwv : wfKeys v = true := by
          simp only [wfKeysElems, Bool.and_eq_true] at hwf
          exact hwf.1
        have hwvs : wfKeysElems vs2 = true := by
          simp only [wfKeysElems, Bool.and_eq_true] at hwf
          exact hwf.2
        cases vs2 with
        | nil =>
          simp only [serializeElems, List.append_nil]
          simp only [parseElemsRest]
          rw [ihV v (']' :: rest) hfv hwv (by rfl)]
          simp [skipWs_cons ']' rest rfl]
        | cons v2 vs3 =>
          rw [show serializeElems (v :: v2 :: vs3) ++ ']' :: rest
              = serializeV v ++ ',' :: (serializeElems (v2 :: vs3) ++ ']' :: rest) from by
            rw [serializeElems_cons2]
            simp]
          simp only [parseElemsRest]
          rw [ihV v (',' :: (serializeElems (v2 :: vs3) ++ ']' :: rest)) hfv hwv (by rfl)]
          simp [skipWs_cons ',' (serializeElems (v2 :: vs3) ++ ']' :: rest) rfl,
            ihE (v2 :: vs3) rest (by simp) hfvs hwvs]
    · -- object members
      intro fs acc rest hfs hf hwf hnd
      cases fs with
      | nil => exact absurd rfl hfs
      | cons p fs2 =>
        obtain ⟨k, v⟩ := p
        have hfv : fuelNeed v ≤ f := by
          simp only [fuelFields] at hf
          have h1 : fuelNeed v ≤ Nat.max (fuelNeed v) (fuelFields fs2) := Nat.le_max_left _ _
          omega
        have hffs : fuelFields fs2 ≤ f := by
          simp only [fuelFields] at hf
          have h1 : fuelFields fs2 ≤ Nat.max (fuelNeed v) (fuelFields fs2) := Nat.le_max_right _ _
          omega
        have hwv : wfKeys v = true := by
          simp only [wfKeysFields, Bool.and_eq_true] at hwf
          exact hwf.1
        have hwfs : wfKeysFields fs2 = true := by
          simp only [wfKeysFields, Bool.and_eq_true] at hwf
          exact hwf.2
        have hknd : keysOf (acc ++ (k, v) :: fs2) = keysOf acc ++ k :: keysOf fs2 := by
          simp [keysOf]
        rw [hknd] at hnd
        have hkacc : k ∉ keysOf acc := by
          intro hk
          have hdisj := (List.nodup_append.mp hnd).2.2
          exact hdisj hk (by simp)
        have hsf : setField acc (String.mk k.data) v = acc ++ [(k, v)] := by
          rw [string_mk_data]
          exact setField_append acc k v hkacc
        cases fs2 with
        | nil =>
          rw [show serializeFields [(k, v)] ++ '\x7d' :: rest
              = '"' :: (escString k.data ++ '"' :: ':' :: (serializeV v ++ '\x7d' :: rest)) from by
            rw [serializeFields_one]
            simp]
          simp only [parseMembersRest]
          rw [skipWs_cons '"' (escString k.data ++ '"' :: ':' :: (serializeV v ++ '\x7d' :: rest)) rfl]
          simp [parseStr_escString k.data (':' :: (serializeV v ++ '\x7d' :: rest)),
            skipWs_cons ':' (serializeV v ++ '\x7d' :: rest) rfl,
            ihV v ('\x7d' :: rest) hfv hwv (by rfl),
            skipWs_cons '\x7d' rest rfl, hsf]
        | cons p2 fs3 =>
          have hnd2 : (keysOf ((acc ++ [(k, v)]) ++ p2 :: fs3)).Nodup := by
            have he : keysOf ((acc ++ [(k, v)]) ++ p2 :: fs3)
                = keysOf acc ++ k :: keysOf (p2 :: fs3) := by
              simp [keysOf]
            rw [he]
            exact hnd
          rw [show serializeFields ((k, v) :: p2 :: fs3) ++ '\x7d' :: rest
              = '"' :: (escString k.data ++ '"' :: ':' :: (serializeV v ++ ',' ::
                  (serializeFields (p2 :: fs3) ++ '\x7d' :: rest))) from by
            rw [serializeFields_cons2]
            simp]
          simp only [parseMembersRest]
          rw [skipWs_cons '"'
            (escString k.data ++ '"' :: ':' :: (serializeV v ++ ',' ::
              (serializeFields (p2 :: fs3) ++ '\x7d' :: rest))) rfl]
          simp [parseStr_escString k.data
              (':' :: (serializeV v ++ ',' :: (serializeFields (p2 :: fs3) ++ '\x7d' :: rest))),
            skipWs_cons ':' (serializeV v ++ ',' ::
              (serializeFields (p2 :: fs3) ++ '\x7d' :: rest)) rfl,
            ihV v (',' :: (serializeFields (p2 :: fs3) ++ '\x7d' :: rest)) hfv hwv (by rfl),
            skipWs_cons ',' (serializeFields (p2 :: fs3) ++ '\x7d' :: rest) rfl, hsf,
            ihM (p2 :: fs3) (acc ++ [(k, v)]) rest (by simp) hffs hwfs hnd2]

theorem fuelNeed_arr (xs : List JsonValue) : fuelNeed (JsonValue.arr xs) = 1 + fuelElems xs := by
  simp [fuelNeed]

theorem fuelNeed_obj (fs : List (String × JsonValue)) :
    fuelNeed (JsonValue.obj fs) = 1 + fuelFields fs := by
  simp [fuelNeed]

theorem fuelElems_cons (v : JsonValue) (vs : List JsonValue) :
    fuelElems (v :: vs) = 1 + Nat.max (fuelNeed v) (fuelElems vs) := by
  simp [fuelElems]

theorem fuelFields_cons (k : String) (v : JsonValue) (fs : List (String × JsonValue)) :
    fuelFields ((k, v) :: fs) = 1 + Nat.max (fuelNeed v) (fuelFields fs) := by
  simp [fuelFields]

theorem fuel_le_len : ∀ n : Nat,
    (∀ v : JsonValue, sizeOf v ≤ n → fuelNeed v ≤ (serializeV v).length + 1)
    ∧ (∀ vs : List JsonValue, sizeOf vs ≤ n → fuelElems vs ≤ (serializeElems vs).length + 2)
    ∧ (∀ fs : List (String × JsonValue), sizeOf fs ≤ n →
        fuelFields fs ≤ (serializeFields fs).length + 2) := by
  intro n
  induction n with
  | zero =>
    refine ⟨?_, ?_, ?_⟩
    · intro v h
      exfalso
      cases v <;> simp at h
    · intro vs h
      exfalso
      cases vs <;> simp at h
    · intro fs h
      exfalso
      cases fs <;> simp at h
  | succ k ih =>
    obtain ⟨ihV, ihE, ihF⟩ := ih
    refine ⟨?_, ?_, ?_⟩
    · intro v h
      cases v with
      | null => simp [fuelNeed]
      | bool b => simp [fuelNeed]
      | num m => simp [fuelNeed]
      | str s => simp [fuelNeed]
      | arr xs =>
        have hx : sizeOf xs ≤ k := by
          have hs : sizeOf (JsonValue.arr xs) = 1 + sizeOf xs := by simp
          omega
        have hE := ihE xs hx
        have hlen : (serializeV (JsonValue.arr xs)).length = (serializeElems xs).length + 2 := by
          simp [serializeV]
        rw [fuelNeed_arr]
        omega
      | obj fs =>
        have hx : sizeOf fs ≤ k := by
          have hs : sizeOf (JsonValue.obj fs) = 1 + sizeOf fs := by simp
          omega
        have hF := ihF fs hx
        have hlen : (serializeV (JsonValue.obj fs)).length = (serializeFields fs).length + 2 := by
          simp [serializeV]
        rw [fuelNeed_obj]
        omega
    · intro vs h
      cases vs with
      | nil => simp [fuelElems]
      | cons v vs2 =>
        have hx : sizeOf v ≤ k ∧ sizeOf vs2 ≤ k := by
          have hs : sizeOf (v :: vs2) = 1 + sizeOf v + sizeOf vs2 := by simp
          omega
        have hA := ihV v hx.1
        have hE := ihE vs2 hx.2
        rw [fuelElems_cons]
        cases vs2 with
        | nil =>
          have hlen : (serializeElems [v]).length = (serializeV v).length := by
            simp [serializeElems]
          have he1 : fuelElems ([] : List JsonValue) = 1 := by simp [fuelElems]
          have hm : Nat.max (fuelNeed v) (fuelElems ([] : List JsonValue))
              ≤ (serializeV v).length + 1 := Nat.max_le.mpr ⟨hA, by omega⟩
          omega
        | cons v2 vs3 =>
          have hlen : (serializeElems (v :: v2 :: vs3)).length
              = (serializeV v).length + ((serializeElems (v2 :: vs3)).length + 1) := by
            rw [serializeElems_cons2]
            simp
          have hm : Nat.max (fuelNeed v) (fuelElems (v2 :: vs3))
              ≤ (serializeV v).length + (serializeElems (v2 :: vs3)).length + 2 :=
            Nat.max_le.mpr ⟨by omega, by omega⟩
          omega
    · intro fs h
      cases fs with
      | nil => simp [fuelFields]
      | cons p fs2 =>
        obtain ⟨kk, v⟩ := p
        have hx : sizeOf v ≤ k ∧ sizeOf fs2 ≤ k := by
          have hs : sizeOf ((kk, v) :: fs2) = 1 + (1 + sizeOf kk + sizeOf v) + sizeOf fs2 := by
            simp
          have hk : 0 ≤ sizeOf kk := Nat.zero_le _
          omega
        have hA := ihV v hx.1
        have hF := ihF fs2 hx.2
        rw [fuelFields_cons]
        cases fs2 with
        | nil =>
          have hlen : (serializeFields [(kk, v)]).length
              = (escString kk.data).length + (serializeV v).length + 3 := by
            rw [serializeFields_one]
            simp
            omega
          have hf1 : fuelFields ([] : List (String × JsonValue)) = 1 := by simp [fuelFields]
          have hm : Nat.max (fuelNeed v) (fuelFields ([] : List (String × JsonValue)))
              ≤ (serializeV v).length + 1 := Nat.max_le.mpr ⟨hA, by omega⟩
          omega
        | cons p2 fs3 =>
          have hlen : (serializeFields ((kk, v) :: p2 :: fs3)).length
              = (escString kk.data).length + (serializeV v).length
                + (serializeFields (p2 :: fs3)).length + 4 := by
            rw [serializeFields_cons2]
            simp
            omega
          have hm : Nat.max (fuelNeed v) (fuelFields (p2 :: fs3))
              ≤ (serializeV v).length + (serializeFields (p2 :: fs3)).length + 2 :=
            Nat.max_le.mpr ⟨by omega, by omega⟩
          omega

theorem parse_getJSON (v : JsonValue) (h : wfKeys v = true) : parse (getJSON v) = some v := by
  have hfuel : fuelNeed v ≤ 2 * (serializeV v).length + 2 := by
    have h1 := (fuel_le_len (sizeOf v)).1 v le_rfl
    omega
  have h1 := (parse_rt (2 * (serializeV v).length + 2)).1 v [] hfuel h rfl
  rw [List.append_nil] at h1
  unfold parse getJSON
  rw [show (String.mk (serializeV v)).data = serializeV v from rfl,
    show (String.mk (serializeV v)).length = (serializeV v).length from rfl, h1]
  rfl

/-! ### Claim theorems: JSON helpers -/

/-- C7 counterexample: the round trip does not succeed on every
structured value: serializing `null` and deserializing it back makes
`Object.setPrototypeOf(null, Proto)` throw a `TypeError`, so
`deserialize(Proto, serialize(null))` fails instead of attaching the
capability set. -/
theorem C7_counterexample :
    getJSON JsonValue.null = "null"
    ∧ fromJSON "capabilities" (getJSON JsonValue.null) = Except.error JsError.typeError := by
  constructor
  · rfl
  · rfl

/-- C7 amended: for every capability object and every JSON value that is
an object or an array (the JavaScript objects; with pairwise-distinct
keys, as every value serialized from a JavaScript object has),
`deserialize(Proto, serialize(x))` succeeds, attaches `Proto`, and
preserves the value — all enumerable fields included — exactly. -/
theorem C7_amended_roundtrip (π : Type) (Proto : π) (v : JsonValue)
    (hwf : wfKeys v = true) (hcomp : v.isComposite = true) :
    fromJSON Proto (getJSON v) = Except.ok (JsResult.object v Proto) := by
  have h1 := parse_getJSON v hwf
  unfold fromJSON
  rw [h1]
  cases v <;> simp [JsonValue.isComposite] at hcomp ⊢

/-- Witness for C7 (amended), on the example value of the spec, an object with fields height = 10 and width = 20. -/
theorem C7_witness :
    fromJSON "capabilities"
        (getJSON (JsonValue.obj [("height", JsonValue.num 10), ("width", JsonValue.num 20)]))
      = Except.ok (JsResult.object
          (JsonValue.obj [("height", JsonValue.num 10), ("width", JsonValue.num 20)])
          "capabilities") :=
  C7_amended_roundtrip String "capabilities"
    (JsonValue.obj [("height", JsonValue.num 10), ("width", JsonValue.num 20)])
    (by simp [wfKeys, wfKeysFields, distinct, keysOf, List.contains]) rfl

/-- C8: whenever the text is not valid JSON (the model parser rejects
it), `fromJSON` fails with the parse error; the failure happens in
`JSON.parse`, before `Object.setPrototypeOf` runs, so no capability
attachment takes place (the result carries no `JsResult`). -/
theorem C8_parse_error_first (π : Type) (P : π) (text : String)
    (h : parse text = none) :
    fromJSON P text = Except.error JsError.parseError := by
  unfold fromJSON
  rw [h]

/-- Witness for C8: the single character `{` is not valid JSON. -/
theorem C8_witness :
    parse (String.mk ['\x7b']) = none
    ∧ fromJSON "capabilities" (String.mk ['\x7b']) = Except.error JsError.parseError :=
  ⟨rfl, C8_parse_error_first String "capabilities" (String.mk ['\x7b']) rfl⟩

/-- C10: on valid JSON texts that do not encode a JSON object,
`fromJSON` does not return an object with attached capabilities: on
the text `null` it throws a `TypeError` (not a `ParseError`), and on number,
string, and boolean texts it returns the bare primitive with no
capabilities attached. -/
theorem C10_nonobject_json (π : Type) (P : π) :
    fromJSON P "null" = Except.error JsError.typeError
    ∧ fromJSON P "5" = Except.ok (JsResult.primitive (JsonValue.num 5))
    ∧ fromJSON P "\"abc\"" = Except.ok (JsResult.primitive (JsonValue.str "abc"))
    ∧ fromJSON P "true" = Except.ok (JsResult.primitive (JsonValue.bool true)) :=
  ⟨rfl, rfl, rfl, rfl⟩
